import Mathlib

/-!
Verification of the planning-and-dispatch core of the warehouse-robot
simulator: the grid A* path planner (`src/planning/path_planner.py`) and the
priority task scheduler (`src/planning/task_scheduler.py`).

The Python code is shallowly embedded:
* mutation of `self` becomes explicit state passing (each method returns its
  result value together with the new state);
* Python floats are modelled exactly: wall-clock stamps as integers, grid
  resolutions and accumulated step costs as rationals, and the planner's
  `f = g + h` values by the exact form `q + sqrt n` with `q : ℚ` (the
  rational part, `float('inf')` encoded as `⊤` of `WithTop ℚ`) and `n : ℕ`
  (the squared Euclidean distance under the root), with a decision procedure
  for the real order of such values;
* `heapq` is represented by the list of entries it holds (pushes append, so
  the list order is the insertion order); `heappop` returns the least entry
  in the tuple order Python compares with, which `popMinWith` computes;
* Python `dict`s become association lists, `id(task)` becomes the task value
  itself (tasks are modelled as natural-number identities, distinct objects
  having distinct ids);
* the unbounded `while` loops (A* main loop, path reconstruction, Bresenham,
  path simplification) take an explicit fuel that is large enough for every
  terminating run; all safety statements proved below are invariants that
  hold for every fuel.
-/

/-! ## Generic association-list and pop-minimum helpers -/

/-- Lookup in an association list (Python `dict` access / `in` test). -/
def lookupA {α β : Type} [DecidableEq α] : List (α × β) → α → Option β
  | [], _ => none
  | (k, v) :: rest, key => if key = k then some v else lookupA rest key

/-- Update of an association list (Python `d[k] = v`). -/
def setA {α β : Type} [DecidableEq α] (l : List (α × β)) (k : α) (v : β) :
    List (α × β) :=
  (l.filter fun p => p.1 ≠ k) ++ [(k, v)]

/-- Pop the least element of a list under the strict order `lt`, returning it
together with the remaining elements in their original order.  This is the
contract of `heapq.heappop` on a heap holding exactly these entries: the
minimum in the order Python compares entries with is returned and removed. -/
def popMinWith {α : Type} (lt : α → α → Bool) : List α → Option (α × List α)
  | [] => none
  | a :: rest =>
    match popMinWith lt rest with
    | none => some (a, [])
    | some (m, rest2) => if lt m a then some (m, a :: rest2) else some (a, rest)

/-! ## Task scheduler (`src/planning/task_scheduler.py`)

Tasks are identified by natural numbers (`id(task)` in Python; distinct task
objects have distinct ids and the default `==` on them is identity).  Priority
levels and wall-clock stamps are integers; `time.time()` is passed in as the
`now` argument of each operation (the two wall-clock reads inside `add_task`,
lines 53 and 58, are modelled as the same instant — no claim distinguishes
them).  A queue entry is the Python triple `(priority, arrival_time, task)`,
compared lexicographically by `heapq`. -/

/-- A scheduler task: its Python object identity. -/
abbrev STask : Type := ℕ

/-- A `task_queue` entry `(priority, timestamp, task)`. -/
abbrev QEntry : Type := ℤ × ℤ × ℕ

/-- Python's `<` on two queue entries: lexicographic on the triple. -/
def qentryLt (a b : QEntry) : Bool :=
  decide (a.1 < b.1 ∨ (a.1 = b.1 ∧
    (a.2.1 < b.2.1 ∨ (a.2.1 = b.2.1 ∧ a.2.2 < b.2.2))))

/-- State of a `TaskScheduler` object: the fields set in `__init__` and
mutated by the methods. -/
structure TaskScheduler where
  tasks : List STask
  max_queue_size : ℕ
  completed_tasks : List STask
  current_task : Option STask
  task_queue : List QEntry
  task_completion_times : List (STask × ℤ)
  task_wait_times : List (STask × ℤ)
  start_time : ℤ
  deriving DecidableEq

/-- `TaskScheduler.__init__(tasks, max_queue_size)` at wall-clock `now`:
every initial task is pushed with priority 1 and the current time. -/
def TaskScheduler.init (tasks : List STask) (max_queue_size : ℕ) (now : ℤ) :
    TaskScheduler :=
  { tasks := tasks
    max_queue_size := max_queue_size
    completed_tasks := []
    current_task := none
    task_queue := tasks.map fun t => ((1 : ℤ), now, t)
    task_completion_times := []
    task_wait_times := []
    start_time := now }

/-- `add_task(task, priority)` at wall-clock `now`.  Returns the success flag
and the new state.  Fails without mutating anything when the queue already
holds `max_queue_size` entries; otherwise pushes `(priority, now, task)`,
appends to `tasks` and records the arrival stamp in `task_wait_times`. -/
def TaskScheduler.add_task (s : TaskScheduler) (task : STask) (priority : ℤ)
    (now : ℤ) : Bool × TaskScheduler :=
  if s.task_queue.length ≥ s.max_queue_size then (false, s)
  else
    (true,
      { s with
        task_queue := s.task_queue ++ [(priority, now, task)]
        tasks := s.tasks ++ [task]
        task_wait_times := setA s.task_wait_times task now })

/-- `add_tasks(tasks, priorities)` at wall-clock `now`: `add_task` on each
pair in order, counting the successes. -/
def TaskScheduler.add_tasks (s : TaskScheduler)
    (tasks : List (STask × ℤ)) (now : ℤ) : ℕ × TaskScheduler :=
  tasks.foldl
    (fun (acc : ℕ × TaskScheduler) tp =>
      let r := acc.2.add_task tp.1 tp.2 now
      (if r.1 then acc.1 + 1 else acc.1, r.2))
    (0, s)

/-- `get_next_task()`: `None` (clearing `current_task`) on an empty queue,
otherwise `heappop` of the priority queue; the popped task becomes
`current_task` and is returned.  Note the popped task is not removed from
`self.tasks`. -/
def TaskScheduler.get_next_task (s : TaskScheduler) :
    Option STask × TaskScheduler :=
  match popMinWith qentryLt s.task_queue with
  | none => (none, { s with current_task := none })
  | some (e, rest) =>
    (some e.2.2, { s with task_queue := rest, current_task := some e.2.2 })

/-- `mark_completed(task)` at wall-clock `now`: if `task in self.tasks`,
remove its first occurrence from `tasks`, append it to `completed_tasks`,
stamp the completion time, and overwrite its `task_wait_times` slot with
`now - arrival` when an arrival stamp exists.  The priority queue is not
touched.  Otherwise return `False` without mutating anything. -/
def TaskScheduler.mark_completed (s : TaskScheduler) (task : STask)
    (now : ℤ) : Bool × TaskScheduler :=
  if task ∈ s.tasks then
    (true,
      { s with
        tasks := s.tasks.erase task
        completed_tasks := s.completed_tasks ++ [task]
        task_completion_times := setA s.task_completion_times task now
        task_wait_times :=
          match lookupA s.task_wait_times task with
          | some arrival => setA s.task_wait_times task (now - arrival)
          | none => s.task_wait_times })
  else (false, s)

/-- `cancel_task(task)`: if `task in self.tasks`, remove its first occurrence
from `tasks` and rebuild the queue without any entry carrying the task
(`heapify` of a filtered comprehension: the entry multiset is the filter).
Otherwise return `False` without mutating anything. -/
def TaskScheduler.cancel_task (s : TaskScheduler) (task : STask) :
    Bool × TaskScheduler :=
  if task ∈ s.tasks then
    (true,
      { s with
        tasks := s.tasks.erase task
        task_queue := s.task_queue.filter fun e => e.2.2 ≠ task })
  else (false, s)

/-- `reprioritize_task(task, new_priority)` at wall-clock `now`: if the task
is active, `cancel_task` it and push it back with the new priority and a
fresh queue timestamp.  `task_wait_times` is not touched.  Otherwise return
`False` without mutating anything. -/
def TaskScheduler.reprioritize_task (s : TaskScheduler) (task : STask)
    (new_priority : ℤ) (now : ℤ) : Bool × TaskScheduler :=
  if task ∈ s.tasks then
    let s1 := (s.cancel_task task).2
    (true,
      { s1 with
        task_queue := s1.task_queue ++ [(new_priority, now, task)]
        tasks := s1.tasks ++ [task] })
  else (false, s)

/-- `get_statistics()["num_completed_tasks"]`. -/
def TaskScheduler.num_completed_tasks (s : TaskScheduler) : ℕ :=
  s.completed_tasks.length

/-- `get_statistics()["num_pending_tasks"]`. -/
def TaskScheduler.num_pending_tasks (s : TaskScheduler) : ℕ :=
  s.task_queue.length

/-! ## Concrete scheduler scenarios used by the claims -/

/-- Scheduler after admitting task 10 with priority 2 at time 0, task 11 with
priority 1 at time 1, and task 12 with priority 1 at time 2 (the dispatch
ordering scenario of the spec). -/
def schedBCA : TaskScheduler :=
  ((((TaskScheduler.init [] 100 0).add_task 10 2 0).2.add_task 11 1
    1).2.add_task 12 1 2).2

/-- Scheduler after admitting task 4 at time 0 and marking it completed at
time 5 while it is still queued (it was never dispatched). -/
def schedCompletedWhileQueued : TaskScheduler :=
  (((TaskScheduler.init [] 100 0).add_task 4 1 0).2.mark_completed 4 5).2

/-- Scheduler with `max_queue_size = 1` after: admit task 1, dispatch it,
admit task 2 (queue full again), then reprioritize the dispatched task 1 —
which pushes it back without a capacity check. -/
def schedOverCap : TaskScheduler :=
  ((((TaskScheduler.init [] 1 0).add_task 1 1 0).2.get_next_task.2.add_task
    2 1 1).2.reprioritize_task 1 0 2).2

/-- Scheduler after admitting task 3 at time 0, reprioritizing it at time 5,
and marking it completed at time 10. -/
def schedReprioWait : TaskScheduler :=
  ((((TaskScheduler.init [] 100 0).add_task 3 1 0).2.reprioritize_task 3 2
    5).2.mark_completed 3 10).2

/-! ## Exact rational values (`Frac`)

Python floats in the planner (map resolution, world coordinates, the
accumulated `g` costs with their `1.414` diagonal steps) are modelled by
exact rationals.  Mathlib's `ℚ` normalizes through `Nat.gcd` inside
`@[irreducible]` definitions, which the kernel cannot evaluate, so the
planner uses plain `num/den` pairs with kernel-computable integer
arithmetic; `den ≠ 0` holds for every value any run constructs, and the
comparison operations decide exactly the real-number order on such values
(`Frac.ble_iff` etc. below). -/

/-- An exact rational `num / den`, not necessarily normalized. -/
structure Frac where
  num : ℤ
  den : ℤ
  deriving DecidableEq

/-- The rational `n`. -/
def Frac.ofInt (n : ℤ) : Frac := ⟨n, 1⟩

/-- Exact addition. -/
def Frac.add (a b : Frac) : Frac :=
  ⟨a.num * b.den + b.num * a.den, a.den * b.den⟩

/-- Exact subtraction. -/
def Frac.sub (a b : Frac) : Frac :=
  ⟨a.num * b.den - b.num * a.den, a.den * b.den⟩

/-- Exact multiplication. -/
def Frac.mul (a b : Frac) : Frac := ⟨a.num * b.num, a.den * b.den⟩

/-- Exact division. -/
def Frac.div (a b : Frac) : Frac := ⟨a.num * b.den, a.den * b.num⟩

/-- Decides `a ≤ b` as real numbers, for any nonzero denominators: cross
multiplication by the square of both denominators. -/
def Frac.ble (a b : Frac) : Bool :=
  decide (a.num * a.den * b.den ^ 2 ≤ b.num * b.den * a.den ^ 2)

/-- Decides `a = b` as real numbers (nonzero denominators). -/
def Frac.beq (a b : Frac) : Bool := decide (a.num * b.den = b.num * a.den)

/-- Decides `0 ≤ a` as a real number (nonzero denominator). -/
def Frac.bnonneg (a : Frac) : Bool := decide (0 ≤ a.num * a.den)

/-- Decides `a < b` as real numbers (nonzero denominators). -/
def Frac.blt (a b : Frac) : Bool := !(b.ble a)

/-- The real number a `Frac` stands for. -/
noncomputable def Frac.toReal (a : Frac) : ℝ := (a.num : ℝ) / (a.den : ℝ)

/-- Python `int()` of an exact rational: truncation toward zero
(t-division of the numerator by the denominator). -/
def Frac.trunc (a : Frac) : ℤ := a.num.tdiv a.den

/-! ## Path planner (`src/planning/path_planner.py`)

Grid cells are integer pairs `(x, y)`; the occupancy grid is the list of its
rows (`grid[y][x]`, values 0/1 as in the numpy array).  A* `f = g + h`
scores are represented exactly: the accumulated `g` is a `Frac`
(`float('inf')` — the default of `g_score.get(current, float('inf'))` —
encoded as `none`), the heuristic contributes `sqrt n` with `n : ℕ` the
squared Euclidean distance, so an f-score is `q + sqrt n`, held as the pair
`⟨q, n⟩` with the decision procedure `qble` for the real order — the order
Python's float comparison follows on these exact values.  `heapq` pushes
append to the open list (so its order is the insertion order) and `heappop`
removes the least entry in Python's tuple order `(f_score, (x, y))`,
computed by `popMinWith aStarLt`. -/

/-- A grid cell `(x, y)`. -/
abbrev Cell : Type := ℤ × ℤ

/-- An occupancy grid: list of its rows, `grid[y][x]`. -/
abbrev Grid : Type := List (List ℕ)

/-- A world-coordinate point in meters. -/
abbrev Pt : Type := Frac × Frac

/-- `grid_map[c.2, c.1]`: occupancy value of a cell (row index is y).  Out of
range indices yield 0 here; every reachable access below is bounds-checked
or clamped first, mirroring the numpy accesses. -/
def cellAt (g : Grid) (c : Cell) : ℕ := (g.getD c.2.toNat []).getD c.1.toNat 0

/-- A `PathPlanner` object: the stored static map and resolution. -/
structure PathPlanner where
  map : Grid
  resolution : Frac
  deriving DecidableEq

/-- `self.height` (`map.shape[0]`). -/
def PathPlanner.height (pl : PathPlanner) : ℕ := pl.map.length

/-- `self.width` (`map.shape[1]`; numpy arrays are rectangular). -/
def PathPlanner.width (pl : PathPlanner) : ℕ := (pl.map.headD []).length

/-- `_meters_to_grid`: divide by the resolution, truncate with `int()`,
clamp to `[0, width-1] × [0, height-1]`. -/
def PathPlanner.meters_to_grid (pl : PathPlanner) (p : Pt) : Cell :=
  (max 0 (min ((pl.width : ℤ) - 1) (Frac.trunc (p.1.div pl.resolution))),
   max 0 (min ((pl.height : ℤ) - 1) (Frac.trunc (p.2.div pl.resolution))))

/-- `_grid_to_meters`: center of the cell, `(coordinate + 0.5) * resolution`. -/
def PathPlanner.grid_to_meters (pl : PathPlanner) (c : Cell) : Pt :=
  (((Frac.ofInt c.1).add ⟨1, 2⟩).mul pl.resolution,
   ((Frac.ofInt c.2).add ⟨1, 2⟩).mul pl.resolution)

/-- The bounding box of one obstacle detection handed to `plan_path`. -/
structure Detection where
  x_min : Frac
  y_min : Frac
  x_max : Frac
  y_max : Frac
  deriving DecidableEq

/-- `planning_map[min_y:max_y+1, min_x:max_x+1] = 1`. -/
def markBox (g : Grid) (min_x max_x min_y max_y : ℤ) : Grid :=
  g.mapIdx fun y row =>
    if min_y ≤ (y : ℤ) ∧ (y : ℤ) ≤ max_y then
      row.mapIdx fun x v =>
        if min_x ≤ (x : ℤ) ∧ (x : ℤ) ≤ max_x then 1 else v
    else row

/-- The obstacle-overlay loop of `plan_path` (lines 47-60): each detection's
bounding box is converted to grid coordinates, clamped, and rasterized onto
a copy of the static map. -/
def PathPlanner.applyDetections (pl : PathPlanner) (dets : List Detection) :
    Grid :=
  dets.foldl
    (fun g det =>
      let mn := pl.meters_to_grid (det.x_min, det.y_min)
      let mx := pl.meters_to_grid (det.x_max, det.y_max)
      let min_x := max 0 (min ((pl.width : ℤ) - 1) mn.1)
      let max_x := max 0 (min ((pl.width : ℤ) - 1) mx.1)
      let min_y := max 0 (min ((pl.height : ℤ) - 1) mn.2)
      let max_y := max 0 (min ((pl.height : ℤ) - 1) mx.2)
      markBox g min_x max_x min_y max_y)
    pl.map

/-- A possibly-infinite exact value: `none` encodes Python's `float('inf')`. -/
abbrev QInf : Type := Option Frac

/-- Addition of a finite cost to a possibly-infinite value. -/
def QInf.add (a : QInf) (c : Frac) : QInf := a.map fun x => x.add c

/-- Python `<` on possibly-infinite values (`inf < inf` is false). -/
def QInf.blt (a b : QInf) : Bool :=
  match a, b with
  | none, _ => false
  | some _, none => true
  | some x, some y => x.blt y

/-- An exact f-score `q + sqrt n`: `q` the rational part (`none` = inf), `n`
the squared Euclidean distance contributed by the heuristic. -/
structure FVal where
  q : QInf
  n : ℕ
  deriving DecidableEq

/-- Decides `q1 + sqrt n1 ≤ q2 + sqrt n2` (squaring twice); `qble_iff` below
proves it equivalent to the real-number comparison that Python's float
comparison follows on these exact values. -/
def qble (q1 : Frac) (n1 : ℕ) (q2 : Frac) (n2 : ℕ) : Bool :=
  let d := q2.sub q1
  if d.bnonneg then
    let L : Frac := ((Frac.ofInt n1).sub (d.mul d)).sub (Frac.ofInt n2)
    if L.ble ⟨0, 1⟩ then true
    else (L.mul L).ble (((Frac.ofInt 4).mul (d.mul d)).mul (Frac.ofInt n2))
  else
    let M : Frac := ((Frac.ofInt n2).sub (d.mul d)).sub (Frac.ofInt n1)
    if M.blt ⟨0, 1⟩ then false
    else (((Frac.ofInt 4).mul (d.mul d)).mul (Frac.ofInt n1)).ble (M.mul M)

/-- `≤` on f-scores (`inf` is maximal, and all `inf` values compare equal,
because `inf + sqrt n = inf` in float arithmetic). -/
def FVal.ble : FVal → FVal → Bool
  | ⟨none, _⟩, ⟨none, _⟩ => true
  | ⟨none, _⟩, ⟨some _, _⟩ => false
  | ⟨some _, _⟩, ⟨none, _⟩ => true
  | ⟨some q1, n1⟩, ⟨some q2, n2⟩ => qble q1 n1 q2 n2

/-- Strict `<` on f-scores. -/
def fvalLt (a b : FVal) : Bool := !(FVal.ble b a)

/-- Equality of f-scores as real numbers (not of representations). -/
def fvalEq (a b : FVal) : Bool := FVal.ble a b && FVal.ble b a

/-- Python `<` on `(x, y)` tuples. -/
def cellLtB (a b : Cell) : Bool :=
  decide (a.1 < b.1 ∨ (a.1 = b.1 ∧ a.2 < b.2))

/-- Python `<` on heap entries `(f_score, position)`: lexicographic, ties in
the float `f` broken by the position tuple. -/
def aStarLt (x y : FVal × Cell) : Bool :=
  fvalLt x.1 y.1 || (fvalEq x.1 y.1 && cellLtB x.2 y.2)

/-- Squared Euclidean distance `(b0-a0)**2 + (b1-a1)**2`: the quantity under
the square root in `_heuristic`. -/
def hsq (a b : Cell) : ℕ :=
  ((b.1 - a.1).natAbs) ^ 2 + ((b.2 - a.2).natAbs) ^ 2

/-- `_heuristic`: Euclidean distance between two grid cells. -/
noncomputable def heuristic (a b : Cell) : ℝ :=
  Real.sqrt ((((b.1 - a.1 : ℤ)) : ℝ) ^ 2 + (((b.2 - a.2 : ℤ)) : ℝ) ^ 2)

/-- The real value of an f-score (on finite values; `inf` is unreachable in
every actual run and mapped to 0 here). -/
noncomputable def FVal.toReal (v : FVal) : ℝ :=
  match v.q with
  | none => 0
  | some q => q.toReal + Real.sqrt v.n

/-- Well-formedness of an f-score: its finite rational part has a nonzero
denominator.  Every f-score any run constructs satisfies this. -/
def FVal.denOk : FVal → Prop
  | ⟨none, _⟩ => True
  | ⟨some q, _⟩ => q.den ≠ 0

instance : ∀ v : FVal, Decidable (FVal.denOk v)
  | ⟨none, _⟩ => isTrue trivial
  | ⟨some q, _⟩ => inferInstanceAs (Decidable (q.den ≠ 0))

/-- The extended-real value of an f-score (`inf` mapped to `⊤`): the value
Python's float comparison orders heap entries by. -/
noncomputable def FVal.keyE (v : FVal) : WithTop ℝ :=
  match v.q with
  | none => ⊤
  | some q => ((q.toReal + Real.sqrt v.n : ℝ) : WithTop ℝ)

/-- The neighbor offsets of `_a_star`, in the order the code lists them. -/
def offs : List (ℤ × ℤ) :=
  [(0, 1), (1, 0), (0, -1), (-1, 0), (1, 1), (1, -1), (-1, 1), (-1, -1)]

/-- The mutable state of one `_a_star` call. -/
structure AState where
  openList : List (FVal × Cell)
  closed : List Cell
  cameFrom : List (Cell × Cell)
  gScore : List (Cell × QInf)
  fScore : List (Cell × FVal)
  deriving DecidableEq

/-- The body of the neighbor loop of `_a_star` (lines 121-151) for a single
offset `(dx, dy)`: bounds check, obstacle/closed check, move cost (diagonal
`1.414`), tentative g, improvement check, score/parent updates, and a push
onto the open list when the cell is not already on it. -/
def expandOne (pl : PathPlanner) (g : Grid) (goal current : Cell)
    (st : AState) (off : ℤ × ℤ) : AState :=
  let nb : Cell := (current.1 + off.1, current.2 + off.2)
  if nb.1 < 0 ∨ nb.1 ≥ (pl.width : ℤ) ∨ nb.2 < 0 ∨ nb.2 ≥ (pl.height : ℤ) then
    st
  else if cellAt g nb = 1 ∨ nb ∈ st.closed then st
  else
    let move_cost : Frac :=
      if off.1.natAbs + off.2.natAbs = 2 then ⟨707, 500⟩ else ⟨1, 1⟩
    let tentative : QInf :=
      QInf.add ((lookupA st.gScore current).getD none) move_cost
    let better : Bool :=
      match lookupA st.gScore nb with
      | none => true
      | some gn => QInf.blt tentative gn
    if better then
      let f : FVal := ⟨tentative, hsq nb goal⟩
      let st1 : AState :=
        { st with
          cameFrom := setA st.cameFrom nb current
          gScore := setA st.gScore nb tentative
          fScore := setA st.fScore nb f }
      if nb ∈ st1.openList.map (fun e => e.2) then st1
      else { st1 with openList := st1.openList ++ [(f, nb)] }
    else st

/-- The whole neighbor loop: fold `expandOne` over the eight offsets. -/
def expandAll (pl : PathPlanner) (g : Grid) (goal current : Cell)
    (st : AState) : AState :=
  offs.foldl (expandOne pl g goal current) st

/-- Path reconstruction (lines 112-115): follow `came_from` from the goal,
building `[goal, parent, ...]`.  The fuel bounds the chain length; every
faithful run's chain is shorter than `cf.length + 1`. -/
def reconAux (cf : List (Cell × Cell)) : ℕ → Cell → List Cell
  | 0, c => [c]
  | fuel + 1, c =>
    match lookupA cf c with
    | none => [c]
    | some p => c :: reconAux cf fuel p

/-- `_a_star` path reconstruction: the parent chain reversed, start first. -/
def reconstruct (cf : List (Cell × Cell)) (c : Cell) : List Cell :=
  (reconAux cf (cf.length + 1) c).reverse

/-- One iteration of the `_a_star` main loop: pop the least entry of the
frontier; on the goal, reconstruct and stop (`Sum.inr`); otherwise close the
cell and expand its neighbors (`Sum.inl`).  An empty frontier returns the
empty path. -/
def aStarStep (pl : PathPlanner) (g : Grid) (goal : Cell) (st : AState) :
    AState ⊕ List Cell :=
  match popMinWith aStarLt st.openList with
  | none => Sum.inr []
  | some (e, rest) =>
    if e.2 = goal then Sum.inr (reconstruct st.cameFrom e.2)
    else
      Sum.inl (expandAll pl g goal e.2
        { st with openList := rest, closed := st.closed ++ [e.2] })

/-- The state after one non-final iteration (used to exhibit concrete
frontier states; a final iteration leaves the state unchanged). -/
def aStarStepState (pl : PathPlanner) (g : Grid) (goal : Cell)
    (st : AState) : AState :=
  match aStarStep pl g goal st with
  | Sum.inl st2 => st2
  | Sum.inr _ => st

/-- The `while open_set:` loop of `_a_star`. -/
def aStarLoop (pl : PathPlanner) (g : Grid) (goal : Cell) :
    ℕ → AState → List Cell
  | 0, _ => []
  | fuel + 1, st =>
    match aStarStep pl g goal st with
    | Sum.inr r => r
    | Sum.inl st2 => aStarLoop pl g goal fuel st2

/-- The initial `_a_star` state: `g_score = {start: 0}`,
`f_score = {start: heuristic(start, goal)}`, start pushed with its f. -/
def aStarInit (start goal : Cell) : AState :=
  { openList := [(⟨some ⟨0, 1⟩, hsq start goal⟩, start)]
    closed := []
    cameFrom := []
    gScore := [(start, some ⟨0, 1⟩)]
    fScore := [(start, ⟨some ⟨0, 1⟩, hsq start goal⟩)] }

/-- `_a_star`: empty path when the start or goal cell is occupied, else the
main loop (the fuel `width*height + 1` covers every terminating run, since
each iteration closes a fresh cell). -/
def PathPlanner.a_star (pl : PathPlanner) (g : Grid) (start goal : Cell) :
    List Cell :=
  if cellAt g start = 1 ∨ cellAt g goal = 1 then []
  else aStarLoop pl g goal (pl.width * pl.height + 1) (aStarInit start goal)

/-- The Bresenham loop of `_is_path_clear` (lines 250-263): walk from
`(x0, y0)` toward `(x1, y1)`, failing on any occupied in-bounds cell met
before the end point.  The fuel covers the `dx + dy` moves of every
faithful run. -/
def bresAux (g : Grid) (x1 y1 sx sy dx dy : ℤ) :
    ℕ → ℤ → ℤ → ℤ → Bool
  | 0, _, _, _ => true
  | fuel + 1, x0, y0, err =>
    if x0 = x1 ∧ y0 = y1 then true
    else if (0 ≤ y0 ∧ y0 < (g.length : ℤ) ∧ 0 ≤ x0 ∧
        x0 < ((g.headD []).length : ℤ)) ∧ cellAt g (x0, y0) = 1 then false
    else
      let e2 := 2 * err
      let err1 := if e2 > -dy then err - dy else err
      let x0n := if e2 > -dy then x0 + sx else x0
      let err2 := if e2 < dx then err1 + dx else err1
      let y0n := if e2 < dx then y0 + sy else y0
      bresAux g x1 y1 sx sy dx dy fuel x0n y0n err2

/-- `_is_path_clear`: convert both end points to grid cells and run the
Bresenham collision walk (the end cell itself is not examined). -/
def PathPlanner.is_path_clear (pl : PathPlanner) (s e : Pt) (g : Grid) :
    Bool :=
  let sg := pl.meters_to_grid s
  let eg := pl.meters_to_grid e
  let dx := |eg.1 - sg.1|
  let dy := |eg.2 - sg.2|
  let sx : ℤ := if sg.1 < eg.1 then 1 else -1
  let sy : ℤ := if sg.2 < eg.2 then 1 else -1
  bresAux g eg.1 eg.2 sx sy dx dy (dx.toNat + dy.toNat + 1) sg.1 sg.2 (dx - dy)

/-- Python `==` on world points (float value equality). -/
def ptEq (a b : Pt) : Bool := a.1.beq b.1 && a.2.beq b.2

/-- The inner `for i in range(len(path)-1, current_idx, -1)` scan of
`_simplify_path`: the first index from the top with a clear straight line
from `path[idx]`, stopping above `idx`. -/
def findJumpAux (pl : PathPlanner) (g : Grid) (path : List Pt)
    (idx : ℕ) : ℕ → Option ℕ
  | 0 => none
  | i + 1 =>
    if i + 1 ≤ idx then none
    else if pl.is_path_clear (path.getD idx (⟨0, 1⟩, ⟨0, 1⟩))
        (path.getD (i + 1) (⟨0, 1⟩, ⟨0, 1⟩)) g then some (i + 1)
    else findJumpAux pl g path idx i

/-- The `while current_idx < len(path) - 1` loop of `_simplify_path`: jump
to the farthest directly reachable index (appending that way point); then,
since the appended point equals `simplified[-1]`, the trailing `if` also
advances one more index and appends it too, when it exists. -/
def simplifyAux (pl : PathPlanner) (g : Grid) (path : List Pt) :
    ℕ → ℕ → List Pt → List Pt
  | 0, _, simplified => simplified
  | fuel + 1, idx, simplified =>
    if idx < path.length - 1 then
      let step1 : ℕ × List Pt :=
        match findJumpAux pl g path idx (path.length - 1) with
        | some i => (i, simplified ++ [path.getD i (⟨0, 1⟩, ⟨0, 1⟩)])
        | none => (idx, simplified)
      let step2 : ℕ × List Pt :=
        if step1.1 = path.length - 1 ∨
            ptEq (path.getD step1.1 (⟨0, 1⟩, ⟨0, 1⟩))
              (step1.2.getLastD (⟨0, 1⟩, ⟨0, 1⟩)) then
          if step1.1 + 1 < path.length then
            (step1.1 + 1, step1.2 ++ [path.getD (step1.1 + 1) (⟨0, 1⟩, ⟨0, 1⟩)])
          else (step1.1 + 1, step1.2)
        else step1
      simplifyAux pl g path fuel step2.1 step2.2
    else simplified

/-- `_simplify_path`: paths of at most two way points pass through; longer
paths run the greedy collapse starting from `[path[0]]`. -/
def PathPlanner.simplify_path (pl : PathPlanner) (path : List Pt)
    (g : Grid) : List Pt :=
  if path.length ≤ 2 then path
  else simplifyAux pl g path (path.length + 1) 0 [path.getD 0 (⟨0, 1⟩, ⟨0, 1⟩)]

/-- `plan_path`: meters to cells, overlay the detections on a copy of the
map, run A*, and either fall back to the direct two-point path or convert
to meters and simplify. -/
def PathPlanner.plan_path (pl : PathPlanner) (start goal : Pt)
    (dets : List Detection) : List Pt :=
  let start_grid := pl.meters_to_grid start
  let goal_grid := pl.meters_to_grid goal
  let planning_map := pl.applyDetections dets
  let path_grid := pl.a_star planning_map start_grid goal_grid
  if path_grid = [] then [start, goal]
  else pl.simplify_path (path_grid.map pl.grid_to_meters) planning_map

/-- Step cost of one 8-connected move as the code prices it (`1.414` for a
diagonal, `1.0` otherwise). -/
def stepCost (a b : Cell) : Frac :=
  if (b.1 - a.1).natAbs + (b.2 - a.2).natAbs = 2 then ⟨707, 500⟩ else ⟨1, 1⟩

/-- Total cost of a grid path under the code's step costs. -/
def pathCost : List Cell → Frac
  | [] => ⟨0, 1⟩
  | [_] => ⟨0, 1⟩
  | a :: b :: rest => (stepCost a b).add (pathCost (b :: rest))

/-- Modelled from the spec: the "analytically computed optimal 1/√2-weighted
distance between start and goal cells" on an obstacle-free grid — the octile
distance with straight steps 1 and diagonal steps √2. -/
noncomputable def octileDistSpec (a b : Cell) : ℝ :=
  (max ((b.1 - a.1).natAbs : ℝ) ((b.2 - a.2).natAbs : ℝ)
      - min ((b.1 - a.1).natAbs : ℝ) ((b.2 - a.2).natAbs : ℝ))
    + Real.sqrt 2 * min ((b.1 - a.1).natAbs : ℝ) ((b.2 - a.2).natAbs : ℝ)

/-! ## Concrete planner scenarios used by the claims -/

/-- A 2x2 planner, resolution 1 m/cell, whose cell `(0, 0)` is occupied. -/
def plOcc : PathPlanner := ⟨[[1, 0], [0, 0]], ⟨1, 1⟩⟩

/-- A free 2x2 planner, resolution 1 m/cell. -/
def plFree2 : PathPlanner := ⟨[[0, 0], [0, 0]], ⟨1, 1⟩⟩

/-- A 3x3 planner, resolution 1 m/cell, with only the center cell occupied. -/
def plC9 : PathPlanner := ⟨[[0, 0, 0], [0, 1, 0], [0, 0, 0]], ⟨1, 1⟩⟩

/-! ## Invariants and relations used to state the path-safety claims -/

/-- The cell lies within the planner's grid bounds. -/
def inGrid (pl : PathPlanner) (c : Cell) : Prop :=
  0 ≤ c.1 ∧ c.1 < (pl.width : ℤ) ∧ 0 ≤ c.2 ∧ c.2 < (pl.height : ℤ)

/-- The cell is in bounds and not occupied on the given grid. -/
def okCell (pl : PathPlanner) (g : Grid) (c : Cell) : Prop :=
  inGrid pl c ∧ cellAt g c ≠ 1

/-- `b` is one 8-connected step away from `a`. -/
def stepOff (a b : Cell) : Prop := (b.1 - a.1, b.2 - a.2) ∈ offs

/-- The A* loop invariant: every frontier cell is in bounds and free, and
every `came_from` entry records a free in-bounds cell reached by one
8-connected step from its (free, in-bounds) parent. -/
def AInv (pl : PathPlanner) (g : Grid) (st : AState) : Prop :=
  (∀ e ∈ st.openList, okCell pl g e.2) ∧
  ∀ kv ∈ st.cameFrom, okCell pl g kv.1 ∧ okCell pl g kv.2 ∧ stepOff kv.2 kv.1

/-- Two way points are either connected by a code-verified clear straight
line, or they are consecutive points of the unsimplified path. -/
def clearOrStep (pl : PathPlanner) (g : Grid) (path : List Pt) (u v : Pt) :
    Prop :=
  pl.is_path_clear u v g = true ∨
    ∃ k, k + 1 < path.length ∧ u = path.getD k (⟨0, 1⟩, ⟨0, 1⟩) ∧
      v = path.getD (k + 1) (⟨0, 1⟩, ⟨0, 1⟩)

/-! ## Lemmas about the generic helpers -/

theorem popMinWith_none_iff {α : Type} (lt : α → α → Bool) (l : List α) :
    popMinWith lt l = none ↔ l = [] := by
  cases l with
  | nil => simp [popMinWith]
  | cons a rest =>
    simp only [popMinWith]
    cases h : popMinWith lt rest with
    | none => simp
    | some p => cases p with
      | mk m rest2 => by_cases hlt : lt m a <;> simp [hlt]

theorem popMinWith_perm {α : Type} (lt : α → α → Bool) :
    ∀ (l : List α) (e : α) (rest : List α),
      popMinWith lt l = some (e, rest) → l.Perm (e :: rest) := by
  intro l
  induction l with
  | nil => intro e rest h; simp [popMinWith] at h
  | cons a tail ih =>
    intro e rest h
    simp only [popMinWith] at h
    cases htail : popMinWith lt tail with
    | none =>
      rw [htail] at h
      dsimp only at h
      simp only [Option.some.injEq, Prod.mk.injEq] at h
      obtain ⟨he, hrest⟩ := h
      have htl : tail = [] := (popMinWith_none_iff lt tail).mp htail
      subst htl
      subst he
      subst hrest
      exact List.Perm.refl _
    | some p =>
      rw [htail] at h
      dsimp only at h
      obtain ⟨m, rest2⟩ := p
      by_cases hlt : lt m a
      · rw [if_pos hlt] at h
        simp only [Option.some.injEq, Prod.mk.injEq] at h
        obtain ⟨he, hrest⟩ := h
        subst he
        subst hrest
        have hperm : tail.Perm (m :: rest2) := ih m rest2 htail
        exact (hperm.cons a).trans (List.Perm.swap m a rest2)
      · rw [if_neg hlt] at h
        simp only [Option.some.injEq, Prod.mk.injEq] at h
        obtain ⟨he, hrest⟩ := h
        subst he
        subst hrest
        exact List.Perm.refl _

theorem popMinWith_mem {α : Type} (lt : α → α → Bool) (l : List α) (e : α)
    (rest : List α) (h : popMinWith lt l = some (e, rest)) : e ∈ l :=
  (popMinWith_perm lt l e rest h).mem_iff.mpr (List.mem_cons_self e rest)

theorem popMinWith_min {α : Type} (lt : α → α → Bool)
    (hA : ∀ x y, lt x y = true → lt y x = false)
    (hT : ∀ x y z, lt x y = false → lt y z = false → lt x z = false) :
    ∀ (l : List α) (e : α) (rest : List α),
      popMinWith lt l = some (e, rest) → ∀ x ∈ l, lt x e = false := by
  have hirr : ∀ x, lt x x = false := by
    intro x
    by_cases hx : lt x x = true
    · exact absurd hx (by simp [hA x x hx])
    · exact Bool.eq_false_iff.mpr hx
  intro l
  induction l with
  | nil => intro e rest h; simp [popMinWith] at h
  | cons a tail ih =>
    intro e rest h x hx
    simp only [popMinWith] at h
    cases htail : popMinWith lt tail with
    | none =>
      rw [htail] at h
      dsimp only at h
      simp only [Option.some.injEq, Prod.mk.injEq] at h
      obtain ⟨he, _⟩ := h
      have htl : tail = [] := (popMinWith_none_iff lt tail).mp htail
      subst htl
      subst he
      rcases List.mem_singleton.mp hx with rfl
      exact hirr x
    | some p =>
      rw [htail] at h
      dsimp only at h
      obtain ⟨m, rest2⟩ := p
      by_cases hlt : lt m a
      · rw [if_pos hlt] at h
        simp only [Option.some.injEq, Prod.mk.injEq] at h
        obtain ⟨he, _⟩ := h
        subst he
        rcases List.mem_cons.mp hx with rfl | hmem
        · exact hA _ _ hlt
        · exact ih m rest2 htail x hmem
      · rw [if_neg hlt] at h
        simp only [Option.some.injEq, Prod.mk.injEq] at h
        obtain ⟨he, _⟩ := h
        subst he
        rcases List.mem_cons.mp hx with rfl | hmem
        · exact hirr x
        · exact hT x m a (ih m rest2 htail x hmem) (Bool.eq_false_iff.mpr hlt)

/-! ## Order properties of the scheduler queue comparison -/

theorem qentryLt_asymm (x y : QEntry) (h : qentryLt x y = true) :
    qentryLt y x = false := by
  obtain ⟨x1, x2, x3⟩ := x
  obtain ⟨y1, y2, y3⟩ := y
  simp only [qentryLt, decide_eq_true_eq] at h
  simp only [qentryLt, decide_eq_false_iff_not]
  omega

theorem qentryLt_negtrans (x y z : QEntry) (hxy : qentryLt x y = false)
    (hyz : qentryLt y z = false) : qentryLt x z = false := by
  obtain ⟨x1, x2, x3⟩ := x
  obtain ⟨y1, y2, y3⟩ := y
  obtain ⟨z1, z2, z3⟩ := z
  simp only [qentryLt, decide_eq_false_iff_not] at hxy hyz ⊢
  omega

theorem lookupA_append_of_ne {α β : Type} [DecidableEq α]
    (l1 l2 : List (α × β)) (k : α) (h : ∀ p ∈ l1, p.1 ≠ k) :
    lookupA (l1 ++ l2) k = lookupA l2 k := by
  induction l1 with
  | nil => simp
  | cons p rest ih =>
    have hp : p.1 ≠ k := h p (List.mem_cons_self p rest)
    simp only [List.cons_append, lookupA, if_neg (Ne.symm hp)]
    exact ih fun q hq => h q (List.mem_cons_of_mem p hq)

theorem lookupA_setA_self {α β : Type} [DecidableEq α]
    (l : List (α × β)) (k : α) (v : β) : lookupA (setA l k v) k = some v := by
  unfold setA
  rw [lookupA_append_of_ne]
  · simp [lookupA]
  · intro p hp
    exact of_decide_eq_true (List.mem_filter.mp hp).2

/-- Claim C3: `get_next_task` removes and returns a queue record with the
lexicographically smallest `(priority, arrival_time)` key (lower priority
number first, earlier arrival first among equal priorities), and returns
`None` on an empty queue, clearing the current-task reference.  Admitting
task 10 with priority 2, then 11 and 12 with priority 1, and popping three
times yields 11, 12, 10 (the spec's B, C, A). -/
theorem claim_C3_dispatch_order (s : TaskScheduler) :
    (s.task_queue = [] →
      s.get_next_task = (none, { s with current_task := none })) ∧
    (s.task_queue ≠ [] →
      ∃ e rest, popMinWith qentryLt s.task_queue = some (e, rest) ∧
        s.get_next_task =
          (some e.2.2, { s with task_queue := rest, current_task := some e.2.2 }) ∧
        e ∈ s.task_queue ∧ s.task_queue.Perm (e :: rest) ∧
        (∀ e2 ∈ s.task_queue,
          e.1 < e2.1 ∨ (e.1 = e2.1 ∧ e.2.1 ≤ e2.2.1))) ∧
    (schedBCA.get_next_task.1 = some 11 ∧
      schedBCA.get_next_task.2.get_next_task.1 = some 12 ∧
      schedBCA.get_next_task.2.get_next_task.2.get_next_task.1 = some 10) := by
  refine ⟨?_, ?_, by decide⟩
  · intro hq
    simp [TaskScheduler.get_next_task, hq, popMinWith]
  · intro hq
    cases hp : popMinWith qentryLt s.task_queue with
    | none => exact absurd ((popMinWith_none_iff _ _).mp hp) hq
    | some pr =>
      obtain ⟨e, rest⟩ := pr
      refine ⟨e, rest, rfl, ?_, popMinWith_mem _ _ _ _ hp,
        popMinWith_perm _ _ _ _ hp, ?_⟩
      · simp [TaskScheduler.get_next_task, hp]
      · intro e2 he2
        have hmin := popMinWith_min qentryLt qentryLt_asymm qentryLt_negtrans
          s.task_queue e rest hp e2 he2
        obtain ⟨p1, t1, k1⟩ := e
        obtain ⟨p2, t2, k2⟩ := e2
        simp only [qentryLt, decide_eq_false_iff_not] at hmin
        dsimp only at hmin ⊢
        omega

/-- Concrete instance of Claim C3's theorem on a nonempty queue. -/
theorem claim_C3_witness :
    ∃ e rest,
      popMinWith qentryLt (TaskScheduler.init [5] 3 7).task_queue
        = some (e, rest) ∧
      (TaskScheduler.init [5] 3 7).get_next_task =
        (some e.2.2, { TaskScheduler.init [5] 3 7 with
          task_queue := rest, current_task := some e.2.2 }) ∧
      e ∈ (TaskScheduler.init [5] 3 7).task_queue ∧
      (TaskScheduler.init [5] 3 7).task_queue.Perm (e :: rest) ∧
      (∀ e2 ∈ (TaskScheduler.init [5] 3 7).task_queue,
        e.1 < e2.1 ∨ (e.1 = e2.1 ∧ e.2.1 ≤ e2.2.1)) :=
  (claim_C3_dispatch_order (TaskScheduler.init [5] 3 7)).2.1 (by decide)

/-- Claim C4 counterexample: task 4 is admitted and then marked completed
while still queued; `mark_completed` succeeds but leaves the queue entry in
place, so the task is simultaneously in the completed list and in the pending
priority queue — the claimed one-state-at-a-time invariant is violated. -/
theorem claim_C4_counterexample :
    ((((TaskScheduler.init [] 100 0).add_task 4 1 0).2.mark_completed 4 5).1
      = true) ∧
    schedCompletedWhileQueued.completed_tasks = [4] ∧
    schedCompletedWhileQueued.task_queue = [(1, 0, 4)] ∧
    (4 ∈ schedCompletedWhileQueued.completed_tasks ∧
      schedCompletedWhileQueued.task_queue.any (fun e => e.2.2 == 4) = true) := by
  decide

/-- Claim C4 amended: `mark_completed` on an active task moves it from the
active list to the completed list and stamps its times, but does not remove
it from the priority queue; the task therefore leaves the queued state only
if it had already been popped by `get_next_task` beforehand. -/
theorem claim_C4_amended (s : TaskScheduler) (task : STask) (now : ℤ)
    (h : task ∈ s.tasks) :
    (s.mark_completed task now).1 = true ∧
    (s.mark_completed task now).2.tasks = s.tasks.erase task ∧
    (s.mark_completed task now).2.completed_tasks
      = s.completed_tasks ++ [task] ∧
    (s.mark_completed task now).2.task_queue = s.task_queue := by
  simp [TaskScheduler.mark_completed, h]

/-- Concrete instance of Claim C4's amended theorem. -/
theorem claim_C4_witness :
    ((((TaskScheduler.init [] 100 0).add_task 4 1 0).2.mark_completed 4 5).1
        = true) ∧
    (((TaskScheduler.init [] 100 0).add_task 4 1 0).2.mark_completed 4
        5).2.tasks
      = ((TaskScheduler.init [] 100 0).add_task 4 1 0).2.tasks.erase 4 ∧
    (((TaskScheduler.init [] 100 0).add_task 4 1 0).2.mark_completed 4
        5).2.completed_tasks
      = ((TaskScheduler.init [] 100 0).add_task 4 1 0).2.completed_tasks
          ++ [4] ∧
    (((TaskScheduler.init [] 100 0).add_task 4 1 0).2.mark_completed 4
        5).2.task_queue
      = ((TaskScheduler.init [] 100 0).add_task 4 1 0).2.task_queue :=
  claim_C4_amended ((TaskScheduler.init [] 100 0).add_task 4 1 0).2 4 5
    (by decide)

/-- Claim C5 counterexample: with `max_queue_size = 1`, admit task 1,
dispatch it, admit task 2 (the queue is full again), then reprioritize the
dispatched task 1: `reprioritize_task` pushes it back into the queue with no
capacity check, so the queue length reaches 2 > 1. -/
theorem claim_C5_counterexample :
    schedOverCap.task_queue.length = 2 ∧ schedOverCap.max_queue_size = 1 := by
  decide

/-- Claim C5 amended: `add_task` refuses (returning `False` and leaving the
state unchanged) when the queue already holds `max_queue_size` entries, and
`add_task` alone never pushes the queue length above the maximum; the bound
is however not an invariant of the full operation set, since
`reprioritize_task` re-inserts without a capacity check. -/
theorem claim_C5_amended (s : TaskScheduler) (task : STask) (p now : ℤ) :
    (s.task_queue.length ≥ s.max_queue_size →
      s.add_task task p now = (false, s)) ∧
    (s.task_queue.length ≤ s.max_queue_size →
      (s.add_task task p now).2.task_queue.length ≤ s.max_queue_size) := by
  constructor
  · intro h
    simp [TaskScheduler.add_task, h]
  · intro h
    by_cases hfull : s.task_queue.length ≥ s.max_queue_size
    · simp [TaskScheduler.add_task, hfull, h]
    · simp only [TaskScheduler.add_task, if_neg hfull]
      simp only [List.length_append, List.length_cons, List.length_nil]
      omega

/-- Concrete instance of Claim C5's amended theorem. -/
theorem claim_C5_witness :
    ((TaskScheduler.init [8] 1 0).task_queue.length ≥
        (TaskScheduler.init [8] 1 0).max_queue_size →
      (TaskScheduler.init [8] 1 0).add_task 9 1 3
        = (false, TaskScheduler.init [8] 1 0)) ∧
    ((TaskScheduler.init [8] 1 0).task_queue.length ≤
        (TaskScheduler.init [8] 1 0).max_queue_size →
      ((TaskScheduler.init [8] 1 0).add_task 9 1 3).2.task_queue.length ≤
        (TaskScheduler.init [8] 1 0).max_queue_size) :=
  claim_C5_amended (TaskScheduler.init [8] 1 0) 9 1 3

/-- Claim C6: on a task that is not currently active (`task not in
self.tasks`), `mark_completed`, `cancel_task` and `reprioritize_task` all
return `False` and leave the whole scheduler state — active list, queue,
completed list, statistics maps — unchanged, so the reported completed and
pending counts are unchanged too. -/
theorem claim_C6_unknown_task_noop (s : TaskScheduler) (task : STask)
    (p now : ℤ) (h : task ∉ s.tasks) :
    s.mark_completed task now = (false, s) ∧
    s.cancel_task task = (false, s) ∧
    s.reprioritize_task task p now = (false, s) ∧
    (s.mark_completed task now).2.num_completed_tasks
      = s.num_completed_tasks ∧
    (s.mark_completed task now).2.num_pending_tasks = s.num_pending_tasks := by
  refine ⟨?_, ?_, ?_, ?_, ?_⟩ <;>
    simp [TaskScheduler.mark_completed, TaskScheduler.cancel_task,
      TaskScheduler.reprioritize_task, h]

/-- Concrete instance of Claim C6's theorem: task 7 was never admitted. -/
theorem claim_C6_witness :
    (TaskScheduler.init [5] 2 0).mark_completed 7 3
      = (false, TaskScheduler.init [5] 2 0) ∧
    (TaskScheduler.init [5] 2 0).cancel_task 7
      = (false, TaskScheduler.init [5] 2 0) ∧
    (TaskScheduler.init [5] 2 0).reprioritize_task 7 1 3
      = (false, TaskScheduler.init [5] 2 0) ∧
    ((TaskScheduler.init [5] 2 0).mark_completed 7 3).2.num_completed_tasks
      = (TaskScheduler.init [5] 2 0).num_completed_tasks ∧
    ((TaskScheduler.init [5] 2 0).mark_completed 7 3).2.num_pending_tasks
      = (TaskScheduler.init [5] 2 0).num_pending_tasks :=
  claim_C6_unknown_task_noop (TaskScheduler.init [5] 2 0) 7 1 3 (by decide)

/-- Claim C7 counterexample: task 3 is admitted at time 0, reprioritized at
time 5, completed at time 10.  The wait time recorded on completion is
10 − 0 = 10, measured from the original admission — not the 10 − 5 = 5 the
claim's reset-on-reprioritize accounting would give. -/
theorem claim_C7_counterexample :
    lookupA schedReprioWait.task_wait_times 3 = some 10 ∧
    ((10 : ℤ) ≠ 10 - 5) := by
  decide

/-- Claim C7 amended: `reprioritize_task` readmits the task with a fresh
queue timestamp (it affects dispatch ordering among equal priorities) but
never touches `task_wait_times`; a later `mark_completed` therefore computes
the wait time from the stamp recorded at the original admission. -/
theorem claim_C7_amended (s : TaskScheduler) (task : STask) (p now : ℤ) :
    (s.reprioritize_task task p now).2.task_wait_times = s.task_wait_times ∧
    (task ∈ s.tasks →
      (p, now, task) ∈ (s.reprioritize_task task p now).2.task_queue) ∧
    (∀ w now2, lookupA s.task_wait_times task = some w → task ∈ s.tasks →
      lookupA (s.mark_completed task now2).2.task_wait_times task
        = some (now2 - w)) := by
  refine ⟨?_, ?_, ?_⟩
  · by_cases h : task ∈ s.tasks
    · simp [TaskScheduler.reprioritize_task, TaskScheduler.cancel_task, h]
    · simp [TaskScheduler.reprioritize_task, h]
  · intro h
    simp [TaskScheduler.reprioritize_task, TaskScheduler.cancel_task, h]
  · intro w now2 hw h
    simp only [TaskScheduler.mark_completed, if_pos h, hw]
    exact lookupA_setA_self _ _ _

/-- Concrete instance of Claim C7's amended theorem. -/
theorem claim_C7_witness :
    ((((TaskScheduler.init [] 100 0).add_task 3 1 0).2.reprioritize_task 3 2
        5).2.task_wait_times
      = ((TaskScheduler.init [] 100 0).add_task 3 1 0).2.task_wait_times) ∧
    (3 ∈ ((TaskScheduler.init [] 100 0).add_task 3 1 0).2.tasks →
      ((2 : ℤ), (5 : ℤ), 3) ∈
        (((TaskScheduler.init [] 100 0).add_task 3 1 0).2.reprioritize_task 3
          2 5).2.task_queue) ∧
    (∀ w now2,
      lookupA ((TaskScheduler.init [] 100 0).add_task 3 1
          0).2.task_wait_times 3 = some w →
      3 ∈ ((TaskScheduler.init [] 100 0).add_task 3 1 0).2.tasks →
      lookupA ((((TaskScheduler.init [] 100 0).add_task 3 1
          0).2.mark_completed 3 now2).2.task_wait_times) 3
        = some (now2 - w)) :=
  claim_C7_amended ((TaskScheduler.init [] 100 0).add_task 3 1 0).2 3 2 5

/-- Claim C10 counterexample: task 4 is completed while still queued, then
`get_next_task` returns it anyway (it was still in the queue), but a
subsequent `mark_completed` on the dispatched task returns `False`, not the
claimed `True` — the task no longer is in the active list. -/
theorem claim_C10_counterexample :
    schedCompletedWhileQueued.get_next_task.1 = some 4 ∧
    (schedCompletedWhileQueued.get_next_task.2.mark_completed 4 6).1
      = false ∧
    (schedCompletedWhileQueued.get_next_task.2.cancel_task 4).1 = false := by
  decide

/-- Claim C10 amended: `get_next_task` on a nonempty queue removes the
returned task's entry from the queue (the pending count drops by one) and
leaves the active task list untouched; hence whenever the returned task is
still in the active list, a subsequent `mark_completed` or `cancel_task` on
it succeeds. -/
theorem claim_C10_dispatched_task (s : TaskScheduler) (now : ℤ)
    (h : s.task_queue ≠ []) :
    ∃ e rest, popMinWith qentryLt s.task_queue = some (e, rest) ∧
      s.get_next_task.1 = some e.2.2 ∧
      s.get_next_task.2.task_queue = rest ∧
      s.get_next_task.2.task_queue.length + 1 = s.task_queue.length ∧
      s.get_next_task.2.tasks = s.tasks ∧
      (e.2.2 ∈ s.tasks →
        (s.get_next_task.2.mark_completed e.2.2 now).1 = true ∧
        (s.get_next_task.2.cancel_task e.2.2).1 = true) := by
  cases hp : popMinWith qentryLt s.task_queue with
  | none => exact absurd ((popMinWith_none_iff _ _).mp hp) h
  | some pr =>
    obtain ⟨e, rest⟩ := pr
    have hlen : s.task_queue.length = rest.length + 1 := by
      have := (popMinWith_perm _ _ _ _ hp).length_eq
      simpa using this
    refine ⟨e, rest, rfl, ?_, ?_, ?_, ?_, ?_⟩ <;>
      simp only [TaskScheduler.get_next_task, hp]
    · omega
    · intro hmem
      constructor
      · simp [TaskScheduler.mark_completed, hmem]
      · simp [TaskScheduler.cancel_task, hmem]

/-- Concrete instance of Claim C10's amended theorem. -/
theorem claim_C10_witness :
    ∃ e rest,
      popMinWith qentryLt (TaskScheduler.init [5] 3 7).task_queue
        = some (e, rest) ∧
      (TaskScheduler.init [5] 3 7).get_next_task.1 = some e.2.2 ∧
      (TaskScheduler.init [5] 3 7).get_next_task.2.task_queue = rest ∧
      (TaskScheduler.init [5] 3 7).get_next_task.2.task_queue.length + 1
        = (TaskScheduler.init [5] 3 7).task_queue.length ∧
      (TaskScheduler.init [5] 3 7).get_next_task.2.tasks
        = (TaskScheduler.init [5] 3 7).tasks ∧
      (e.2.2 ∈ (TaskScheduler.init [5] 3 7).tasks →
        ((TaskScheduler.init [5] 3
          7).get_next_task.2.mark_completed e.2.2 9).1 = true ∧
        ((TaskScheduler.init [5] 3 7).get_next_task.2.cancel_task e.2.2).1
          = true) :=
  claim_C10_dispatched_task (TaskScheduler.init [5] 3 7) 9 (by decide)


/-- Claim C1 counterexample: the start `(0, 0)` maps to the occupied cell
`(0, 0)` of `plOcc`, yet `plan_path` returns the two-point fallback
`[start, goal]` (line 67), not an empty sequence. -/
theorem claim_C1_counterexample :
    cellAt (plOcc.applyDetections []) (plOcc.meters_to_grid (⟨0, 1⟩, ⟨0, 1⟩))
      = 1 ∧
    plOcc.plan_path (⟨0, 1⟩, ⟨0, 1⟩) (⟨1, 1⟩, ⟨1, 1⟩) []
      = [(⟨0, 1⟩, ⟨0, 1⟩), (⟨1, 1⟩, ⟨1, 1⟩)] ∧
    plOcc.plan_path (⟨0, 1⟩, ⟨0, 1⟩) (⟨1, 1⟩, ⟨1, 1⟩) [] ≠ [] := by
  refine ⟨by decide, by decide, by decide⟩

/-- Claim C1 amended: when the start or the goal maps to an occupied cell of
the working planning grid (static map plus overlaid detections), the A*
search returns the empty path, and `plan_path` therefore returns the
two-point direct fallback `[start, goal]` — not an empty sequence. -/
theorem claim_C1_occupied_endpoint_fallback (pl : PathPlanner)
    (start goal : Pt) (dets : List Detection)
    (h : cellAt (pl.applyDetections dets) (pl.meters_to_grid start) = 1 ∨
      cellAt (pl.applyDetections dets) (pl.meters_to_grid goal) = 1) :
    pl.a_star (pl.applyDetections dets) (pl.meters_to_grid start)
      (pl.meters_to_grid goal) = [] ∧
    pl.plan_path start goal dets = [start, goal] := by
  have ha : pl.a_star (pl.applyDetections dets) (pl.meters_to_grid start)
      (pl.meters_to_grid goal) = [] := by
    simp only [PathPlanner.a_star, if_pos h]
  refine ⟨ha, ?_⟩
  simp [PathPlanner.plan_path, ha]

/-- Concrete instance of Claim C1's amended theorem on `plOcc`. -/
theorem claim_C1_witness :
    plOcc.a_star (plOcc.applyDetections [])
      (plOcc.meters_to_grid (⟨0, 1⟩, ⟨0, 1⟩))
      (plOcc.meters_to_grid (⟨1, 1⟩, ⟨1, 1⟩)) = [] ∧
    plOcc.plan_path (⟨0, 1⟩, ⟨0, 1⟩) (⟨1, 1⟩, ⟨1, 1⟩) []
      = [(⟨0, 1⟩, ⟨0, 1⟩), (⟨1, 1⟩, ⟨1, 1⟩)] :=
  claim_C1_occupied_endpoint_fallback plOcc (⟨0, 1⟩, ⟨0, 1⟩) (⟨1, 1⟩, ⟨1, 1⟩)
    [] (Or.inl (by decide))

/-! ## Real-number meaning of the `Frac` operations -/

theorem Frac.toReal_ofInt (n : ℤ) : (Frac.ofInt n).toReal = (n : ℝ) := by
  simp [Frac.ofInt, Frac.toReal]

theorem Frac.add_den_ne {a b : Frac} (ha : a.den ≠ 0) (hb : b.den ≠ 0) :
    (a.add b).den ≠ 0 := mul_ne_zero ha hb

theorem Frac.sub_den_ne {a b : Frac} (ha : a.den ≠ 0) (hb : b.den ≠ 0) :
    (a.sub b).den ≠ 0 := mul_ne_zero ha hb

theorem Frac.mul_den_ne {a b : Frac} (ha : a.den ≠ 0) (hb : b.den ≠ 0) :
    (a.mul b).den ≠ 0 := mul_ne_zero ha hb

theorem Frac.toReal_add {a b : Frac} (ha : a.den ≠ 0) (hb : b.den ≠ 0) :
    (a.add b).toReal = a.toReal + b.toReal := by
  have ha' : ((a.den : ℤ) : ℝ) ≠ 0 := Int.cast_ne_zero.mpr ha
  have hb' : ((b.den : ℤ) : ℝ) ≠ 0 := Int.cast_ne_zero.mpr hb
  simp only [Frac.add, Frac.toReal]
  push_cast
  field_simp
  try ring

theorem Frac.toReal_sub {a b : Frac} (ha : a.den ≠ 0) (hb : b.den ≠ 0) :
    (a.sub b).toReal = a.toReal - b.toReal := by
  have ha' : ((a.den : ℤ) : ℝ) ≠ 0 := Int.cast_ne_zero.mpr ha
  have hb' : ((b.den : ℤ) : ℝ) ≠ 0 := Int.cast_ne_zero.mpr hb
  simp only [Frac.sub, Frac.toReal]
  push_cast
  field_simp
  ring

theorem Frac.toReal_mul {a b : Frac} (ha : a.den ≠ 0) (hb : b.den ≠ 0) :
    (a.mul b).toReal = a.toReal * b.toReal := by
  have ha' : ((a.den : ℤ) : ℝ) ≠ 0 := Int.cast_ne_zero.mpr ha
  have hb' : ((b.den : ℤ) : ℝ) ≠ 0 := Int.cast_ne_zero.mpr hb
  simp only [Frac.mul, Frac.toReal]
  push_cast
  field_simp

theorem Frac.toReal_eq_div_sq (a : Frac) (ha : a.den ≠ 0) :
    a.toReal = ((a.num * a.den : ℤ) : ℝ) / ((a.den ^ 2 : ℤ) : ℝ) := by
  have ha' : ((a.den : ℤ) : ℝ) ≠ 0 := Int.cast_ne_zero.mpr ha
  simp only [Frac.toReal]
  push_cast
  rw [div_eq_div_iff ha' (by positivity)]
  ring

theorem Frac.ble_iff {a b : Frac} (ha : a.den ≠ 0) (hb : b.den ≠ 0) :
    a.ble b = true ↔ a.toReal ≤ b.toReal := by
  have ha2 : (0 : ℝ) < ((a.den ^ 2 : ℤ) : ℝ) := by
    exact_mod_cast pow_two_pos_of_ne_zero ha
  have hb2 : (0 : ℝ) < ((b.den ^ 2 : ℤ) : ℝ) := by
    exact_mod_cast pow_two_pos_of_ne_zero hb
  simp only [Frac.ble, decide_eq_true_eq]
  rw [Frac.toReal_eq_div_sq a ha, Frac.toReal_eq_div_sq b hb,
    div_le_div_iff ha2 hb2]
  constructor
  · intro h; exact_mod_cast h
  · intro h; exact_mod_cast h

theorem Frac.beq_iff {a b : Frac} (ha : a.den ≠ 0) (hb : b.den ≠ 0) :
    a.beq b = true ↔ a.toReal = b.toReal := by
  have ha' : ((a.den : ℤ) : ℝ) ≠ 0 := Int.cast_ne_zero.mpr ha
  have hb' : ((b.den : ℤ) : ℝ) ≠ 0 := Int.cast_ne_zero.mpr hb
  simp only [Frac.beq, decide_eq_true_eq, Frac.toReal]
  rw [div_eq_div_iff ha' hb']
  constructor
  · intro h; exact_mod_cast h
  · intro h; exact_mod_cast h

theorem Frac.bnonneg_iff {a : Frac} (ha : a.den ≠ 0) :
    a.bnonneg = true ↔ 0 ≤ a.toReal := by
  have ha2 : (0 : ℝ) < ((a.den ^ 2 : ℤ) : ℝ) := by
    exact_mod_cast pow_two_pos_of_ne_zero ha
  rw [Frac.toReal_eq_div_sq a ha]
  simp only [Frac.bnonneg, decide_eq_true_eq]
  rw [le_div_iff ha2, zero_mul]
  constructor
  · intro h; exact_mod_cast h
  · intro h; exact_mod_cast h

theorem Frac.blt_iff {a b : Frac} (ha : a.den ≠ 0) (hb : b.den ≠ 0) :
    a.blt b = true ↔ a.toReal < b.toReal := by
  rw [Frac.blt, Bool.not_eq_true', ← not_le, ← Frac.ble_iff hb ha]
  simp

/-! ## The four square-root comparisons behind `qble` -/

theorem sqrtCmp_nonneg_easy (DR : ℝ) (n1 n2 : ℕ) (hDRnn : 0 ≤ DR)
    (hLle : (n1 : ℝ) - DR ^ 2 - (n2 : ℝ) ≤ 0) :
    Real.sqrt n1 ≤ DR + Real.sqrt n2 := by
  have hr2 : Real.sqrt (n2 : ℝ) ^ 2 = (n2 : ℝ) := Real.sq_sqrt (Nat.cast_nonneg n2)
  have hn2 : (0 : ℝ) ≤ Real.sqrt (n2 : ℝ) := Real.sqrt_nonneg _
  rw [Real.sqrt_le_iff]
  exact ⟨by linarith, by nlinarith [mul_nonneg hDRnn hn2]⟩

theorem sqrtCmp_nonneg_hard (DR : ℝ) (n1 n2 : ℕ) (hDRnn : 0 ≤ DR)
    (hLpos : 0 < (n1 : ℝ) - DR ^ 2 - (n2 : ℝ)) :
    ((n1 : ℝ) - DR ^ 2 - (n2 : ℝ)) ^ 2 ≤ 4 * DR ^ 2 * (n2 : ℝ) ↔
      Real.sqrt n1 ≤ DR + Real.sqrt n2 := by
  have hr2 : Real.sqrt (n2 : ℝ) ^ 2 = (n2 : ℝ) := Real.sq_sqrt (Nat.cast_nonneg n2)
  have hn2 : (0 : ℝ) ≤ Real.sqrt (n2 : ℝ) := Real.sqrt_nonneg _
  constructor
  · intro h4
    have h2nn : (0 : ℝ) ≤ 2 * DR * Real.sqrt n2 := by
      have := mul_nonneg hDRnn hn2; linarith
    have hsq : (n1 : ℝ) - DR ^ 2 - (n2 : ℝ) ≤ 2 * DR * Real.sqrt n2 :=
      le_of_pow_le_pow_left two_ne_zero h2nn (by nlinarith [h4, hr2])
    rw [Real.sqrt_le_iff]
    exact ⟨by linarith, by nlinarith [hsq]⟩
  · intro hreal
    have hb : (n1 : ℝ) ≤ (DR + Real.sqrt n2) ^ 2 := (Real.sqrt_le_iff.mp hreal).2
    have hsq : (n1 : ℝ) - DR ^ 2 - (n2 : ℝ) ≤ 2 * DR * Real.sqrt n2 := by
      nlinarith [hr2]
    have hfin := pow_le_pow_left (le_of_lt hLpos) hsq 2
    nlinarith [hfin, hr2]

theorem sqrtCmp_neg_easy (DR : ℝ) (n1 n2 : ℕ) (hDRneg : DR < 0)
    (hMneg : (n2 : ℝ) - DR ^ 2 - (n1 : ℝ) < 0) :
    ¬(Real.sqrt n1 ≤ DR + Real.sqrt n2) := by
  have hr1 : Real.sqrt (n1 : ℝ) ^ 2 = (n1 : ℝ) := Real.sq_sqrt (Nat.cast_nonneg n1)
  have hr2 : Real.sqrt (n2 : ℝ) ^ 2 = (n2 : ℝ) := Real.sq_sqrt (Nat.cast_nonneg n2)
  have hn1 : (0 : ℝ) ≤ Real.sqrt (n1 : ℝ) := Real.sqrt_nonneg _
  have hn2 : (0 : ℝ) ≤ Real.sqrt (n2 : ℝ) := Real.sqrt_nonneg _
  intro hcon
  have hle : Real.sqrt n1 - DR ≤ Real.sqrt n2 := by linarith
  have hnn2 : (0 : ℝ) ≤ Real.sqrt n1 - DR := by linarith
  have hkey : (Real.sqrt n1 - DR) ^ 2 ≤ (n2 : ℝ) := by
    have := pow_le_pow_left hnn2 hle 2
    rw [hr2] at this; exact this
  nlinarith [hkey, hr1, mul_nonneg (neg_nonneg.mpr (le_of_lt hDRneg)) hn1]

theorem sqrtCmp_neg_hard (DR : ℝ) (n1 n2 : ℕ) (hDRneg : DR < 0)
    (hMnn : 0 ≤ (n2 : ℝ) - DR ^ 2 - (n1 : ℝ)) :
    4 * DR ^ 2 * (n1 : ℝ) ≤ ((n2 : ℝ) - DR ^ 2 - (n1 : ℝ)) ^ 2 ↔
      Real.sqrt n1 ≤ DR + Real.sqrt n2 := by
  have hr1 : Real.sqrt (n1 : ℝ) ^ 2 = (n1 : ℝ) := Real.sq_sqrt (Nat.cast_nonneg n1)
  have hr2 : Real.sqrt (n2 : ℝ) ^ 2 = (n2 : ℝ) := Real.sq_sqrt (Nat.cast_nonneg n2)
  have hn1 : (0 : ℝ) ≤ Real.sqrt (n1 : ℝ) := Real.sqrt_nonneg _
  have h2nn : (0 : ℝ) ≤ 2 * (-DR) * Real.sqrt n1 := by
    have := mul_nonneg (neg_nonneg.mpr (le_of_lt hDRneg)) hn1; linarith
  constructor
  · intro h4
    have hsq : 2 * (-DR) * Real.sqrt n1 ≤ (n2 : ℝ) - DR ^ 2 - (n1 : ℝ) :=
      le_of_pow_le_pow_left two_ne_zero hMnn (by nlinarith [h4, hr1])
    have hkey : (Real.sqrt n1 - DR) ^ 2 ≤ (n2 : ℝ) := by nlinarith [hr1, hsq]
    have hnn2 : (0 : ℝ) ≤ Real.sqrt n1 - DR := by linarith
    have := (Real.le_sqrt hnn2 (Nat.cast_nonneg n2)).mpr hkey
    linarith
  · intro hreal
    have hle : Real.sqrt n1 - DR ≤ Real.sqrt n2 := by linarith
    have hnn2 : (0 : ℝ) ≤ Real.sqrt n1 - DR := by linarith
    have hkey : (Real.sqrt n1 - DR) ^ 2 ≤ (n2 : ℝ) := by
      have := pow_le_pow_left hnn2 hle 2
      rw [hr2] at this; exact this
    have hsq : 2 * (-DR) * Real.sqrt n1 ≤ (n2 : ℝ) - DR ^ 2 - (n1 : ℝ) := by
      nlinarith [hkey, hr1]
    have hfin := pow_le_pow_left h2nn hsq 2
    nlinarith [hfin, hr1]

/-- The decision procedure `qble` decides exactly the real comparison
`q1 + sqrt n1 ≤ q2 + sqrt n2` — the comparison Python's float `<` and heap
order follow on the planner's f-scores. -/
theorem qble_iff (q1 q2 : Frac) (n1 n2 : ℕ) (h1 : q1.den ≠ 0)
    (h2 : q2.den ≠ 0) :
    qble q1 n1 q2 n2 = true ↔
      q1.toReal + Real.sqrt n1 ≤ q2.toReal + Real.sqrt n2 := by
  have hone : (Frac.ofInt (n1 : ℤ)).den ≠ 0 := one_ne_zero
  have hone2 : (Frac.ofInt (n2 : ℤ)).den ≠ 0 := one_ne_zero
  have hone4 : (Frac.ofInt 4).den ≠ 0 := one_ne_zero
  have hzden : (⟨0, 1⟩ : Frac).den ≠ 0 := one_ne_zero
  have hz : (⟨0, 1⟩ : Frac).toReal = 0 := by simp [Frac.toReal]
  have hd : (q2.sub q1).den ≠ 0 := Frac.sub_den_ne h2 h1
  have hdd : ((q2.sub q1).mul (q2.sub q1)).den ≠ 0 := Frac.mul_den_ne hd hd
  have hdR : (q2.sub q1).toReal = q2.toReal - q1.toReal := Frac.toReal_sub h2 h1
  have hLval : (((Frac.ofInt (n1 : ℤ)).sub ((q2.sub q1).mul (q2.sub q1))).sub
      (Frac.ofInt (n2 : ℤ))).toReal
      = (n1 : ℝ) - (q2.sub q1).toReal ^ 2 - (n2 : ℝ) := by
    rw [Frac.toReal_sub (Frac.sub_den_ne hone hdd) hone2,
      Frac.toReal_sub hone hdd, Frac.toReal_mul hd hd, Frac.toReal_ofInt,
      Frac.toReal_ofInt]
    push_cast
    ring
  have hLden : (((Frac.ofInt (n1 : ℤ)).sub ((q2.sub q1).mul (q2.sub q1))).sub
      (Frac.ofInt (n2 : ℤ))).den ≠ 0 :=
    Frac.sub_den_ne (Frac.sub_den_ne hone hdd) hone2
  have hLLden : ((((Frac.ofInt (n1 : ℤ)).sub ((q2.sub q1).mul
      (q2.sub q1))).sub (Frac.ofInt (n2 : ℤ))).mul
      (((Frac.ofInt (n1 : ℤ)).sub ((q2.sub q1).mul (q2.sub q1))).sub
      (Frac.ofInt (n2 : ℤ)))).den ≠ 0 := Frac.mul_den_ne hLden hLden
  have hLLval : ((((Frac.ofInt (n1 : ℤ)).sub ((q2.sub q1).mul
      (q2.sub q1))).sub (Frac.ofInt (n2 : ℤ))).mul
      (((Frac.ofInt (n1 : ℤ)).sub ((q2.sub q1).mul (q2.sub q1))).sub
      (Frac.ofInt (n2 : ℤ)))).toReal
      = ((n1 : ℝ) - (q2.sub q1).toReal ^ 2 - (n2 : ℝ)) ^ 2 := by
    rw [Frac.toReal_mul hLden hLden, hLval]; ring
  have hMval : (((Frac.ofInt (n2 : ℤ)).sub ((q2.sub q1).mul (q2.sub q1))).sub
      (Frac.ofInt (n1 : ℤ))).toReal
      = (n2 : ℝ) - (q2.sub q1).toReal ^ 2 - (n1 : ℝ) := by
    rw [Frac.toReal_sub (Frac.sub_den_ne hone2 hdd) hone,
      Frac.toReal_sub hone2 hdd, Frac.toReal_mul hd hd, Frac.toReal_ofInt,
      Frac.toReal_ofInt]
    push_cast
    ring
  have hMden : (((Frac.ofInt (n2 : ℤ)).sub ((q2.sub q1).mul (q2.sub q1))).sub
      (Frac.ofInt (n1 : ℤ))).den ≠ 0 :=
    Frac.sub_den_ne (Frac.sub_den_ne hone2 hdd) hone
  have hMMden : ((((Frac.ofInt (n2 : ℤ)).sub ((q2.sub q1).mul
      (q2.sub q1))).sub (Frac.ofInt (n1 : ℤ))).mul
      (((Frac.ofInt (n2 : ℤ)).sub ((q2.sub q1).mul (q2.sub q1))).sub
      (Frac.ofInt (n1 : ℤ)))).den ≠ 0 := Frac.mul_den_ne hMden hMden
  have hMMval : ((((Frac.ofInt (n2 : ℤ)).sub ((q2.sub q1).mul
      (q2.sub q1))).sub (Frac.ofInt (n1 : ℤ))).mul
      (((Frac.ofInt (n2 : ℤ)).sub ((q2.sub q1).mul (q2.sub q1))).sub
      (Frac.ofInt (n1 : ℤ)))).toReal
      = ((n2 : ℝ) - (q2.sub q1).toReal ^ 2 - (n1 : ℝ)) ^ 2 := by
    rw [Frac.toReal_mul hMden hMden, hMval]; ring
  have hRHSval : ((((Frac.ofInt 4).mul ((q2.sub q1).mul (q2.sub q1))).mul
      (Frac.ofInt (n2 : ℤ)))).toReal
      = 4 * (q2.sub q1).toReal ^ 2 * (n2 : ℝ) := by
    rw [Frac.toReal_mul (Frac.mul_den_ne hone4 hdd) hone2,
      Frac.toReal_mul hone4 hdd, Frac.toReal_mul hd hd, Frac.toReal_ofInt,
      Frac.toReal_ofInt]
    push_cast
    ring
  have hRHSden : ((((Frac.ofInt 4).mul ((q2.sub q1).mul (q2.sub q1))).mul
      (Frac.ofInt (n2 : ℤ)))).den ≠ 0 :=
    Frac.mul_den_ne (Frac.mul_den_ne hone4 hdd) hone2
  have hRHS1val : ((((Frac.ofInt 4).mul ((q2.sub q1).mul (q2.sub q1))).mul
      (Frac.ofInt (n1 : ℤ)))).toReal
      = 4 * (q2.sub q1).toReal ^ 2 * (n1 : ℝ) := by
    rw [Frac.toReal_mul (Frac.mul_den_ne hone4 hdd) hone,
      Frac.toReal_mul hone4 hdd, Frac.toReal_mul hd hd, Frac.toReal_ofInt,
      Frac.toReal_ofInt]
    push_cast
    ring
  have hRHS1den : ((((Frac.ofInt 4).mul ((q2.sub q1).mul (q2.sub q1))).mul
      (Frac.ofInt (n1 : ℤ)))).den ≠ 0 :=
    Frac.mul_den_ne (Frac.mul_den_ne hone4 hdd) hone
  have hiff : (q1.toReal + Real.sqrt n1 ≤ q2.toReal + Real.sqrt n2) ↔
      Real.sqrt n1 ≤ (q2.sub q1).toReal + Real.sqrt n2 := by
    rw [hdR]; constructor <;> intro h <;> linarith
  rw [hiff]
  simp only [qble]
  by_cases hnn : (q2.sub q1).bnonneg = true
  · rw [if_pos hnn]
    have hDRnn : 0 ≤ (q2.sub q1).toReal := (Frac.bnonneg_iff hd).mp hnn
    by_cases hL : (((Frac.ofInt (n1 : ℤ)).sub ((q2.sub q1).mul
        (q2.sub q1))).sub (Frac.ofInt (n2 : ℤ))).ble ⟨0, 1⟩ = true
    · rw [if_pos hL]
      have hLle : (n1 : ℝ) - (q2.sub q1).toReal ^ 2 - (n2 : ℝ) ≤ 0 := by
        have := (Frac.ble_iff hLden hzden).mp hL
        rw [hLval, hz] at this; exact this
      simp only [true_iff]
      exact sqrtCmp_nonneg_easy _ n1 n2 hDRnn hLle
    · rw [if_neg hL]
      have hLpos : 0 < (n1 : ℝ) - (q2.sub q1).toReal ^ 2 - (n2 : ℝ) := by
        have := (Frac.ble_iff hLden hzden).not.mp hL
        rw [hLval, hz] at this; linarith [not_le.mp this]
      rw [Frac.ble_iff hLLden hRHSden, hLLval, hRHSval]
      exact sqrtCmp_nonneg_hard _ n1 n2 hDRnn hLpos
  · rw [if_neg hnn]
    have hDRneg : (q2.sub q1).toReal < 0 := by
      have := (Frac.bnonneg_iff hd).not.mp hnn
      linarith [not_le.mp this]
    by_cases hM : (((Frac.ofInt (n2 : ℤ)).sub ((q2.sub q1).mul
        (q2.sub q1))).sub (Frac.ofInt (n1 : ℤ))).blt ⟨0, 1⟩ = true
    · rw [if_pos hM]
      have hMneg : (n2 : ℝ) - (q2.sub q1).toReal ^ 2 - (n1 : ℝ) < 0 := by
        have := (Frac.blt_iff hMden hzden).mp hM
        rw [hMval, hz] at this; exact this
      constructor
      · intro hcon; exact absurd hcon (by simp)
      · intro hcon
        exact absurd hcon (sqrtCmp_neg_easy _ n1 n2 hDRneg hMneg)
    · rw [if_neg hM]
      have hMnn : 0 ≤ (n2 : ℝ) - (q2.sub q1).toReal ^ 2 - (n1 : ℝ) := by
        have := (Frac.blt_iff hMden hzden).not.mp hM
        linarith [not_lt.mp (by rwa [hMval, hz] at this)]
      rw [Frac.ble_iff hRHS1den hMMden, hRHS1val, hMMval]
      exact sqrtCmp_neg_hard _ n1 n2 hDRneg hMnn

/-- `FVal.ble` decides the extended-real order of the keys. -/
theorem FVal.ble_iff_keyE {a b : FVal} (ha : a.denOk) (hb : b.denOk) :
    a.ble b = true ↔ a.keyE ≤ b.keyE := by
  obtain ⟨qa, na⟩ := a
  obtain ⟨qb, nb⟩ := b
  cases qa with
  | none =>
    cases qb with
    | none => simp [FVal.ble, FVal.keyE]
    | some q2 =>
      simp only [FVal.ble, FVal.keyE]
      constructor
      · intro h; exact absurd h (by simp)
      · intro h; exact absurd h (by simp)
  | some q1 =>
    cases qb with
    | none => simp [FVal.ble, FVal.keyE, le_top]
    | some q2 =>
      have h1 : q1.den ≠ 0 := ha
      have h2 : q2.den ≠ 0 := hb
      simp only [FVal.ble, FVal.keyE]
      rw [qble_iff q1 q2 na nb h1 h2]
      exact (WithTop.coe_le_coe).symm

/-- `fvalLt` decides the strict extended-real order of the keys. -/
theorem fvalLt_iff_keyE {a b : FVal} (ha : a.denOk) (hb : b.denOk) :
    fvalLt a b = true ↔ a.keyE < b.keyE := by
  rw [fvalLt, Bool.not_eq_true', Bool.eq_false_iff]
  exact (not_congr (FVal.ble_iff_keyE hb ha)).trans not_le

/-- `fvalEq` decides extended-real equality of the keys. -/
theorem fvalEq_iff_keyE {a b : FVal} (ha : a.denOk) (hb : b.denOk) :
    fvalEq a b = true ↔ a.keyE = b.keyE := by
  rw [fvalEq, Bool.and_eq_true, FVal.ble_iff_keyE ha hb,
    FVal.ble_iff_keyE hb ha]
  constructor
  · rintro ⟨hab, hba⟩; exact le_antisymm hab hba
  · intro h; exact ⟨le_of_eq h, le_of_eq h.symm⟩

/-- `cellLtB` decides the lexicographic order on cells. -/
theorem cellLtB_iff (a b : Cell) :
    cellLtB a b = true ↔ a.1 < b.1 ∨ (a.1 = b.1 ∧ a.2 < b.2) := by
  simp [cellLtB]

/-- `aStarLt` decides the lexicographic order on `(key, cell)` — smaller
real f-score first, ties broken by the cell coordinate tuple. -/
theorem aStarLt_iff {x y : FVal × Cell} (hx : x.1.denOk) (hy : y.1.denOk) :
    aStarLt x y = true ↔
      x.1.keyE < y.1.keyE ∨ (x.1.keyE = y.1.keyE ∧
        (x.2.1 < y.2.1 ∨ (x.2.1 = y.2.1 ∧ x.2.2 < y.2.2))) := by
  rw [aStarLt, Bool.or_eq_true, Bool.and_eq_true, fvalLt_iff_keyE hx hy,
    fvalEq_iff_keyE hx hy, cellLtB_iff]

/-- Asymmetry of the heap-entry order on well-formed entries. -/
theorem aStarLt_asymm {x y : FVal × Cell} (hx : x.1.denOk) (hy : y.1.denOk)
    (h : aStarLt x y = true) : aStarLt y x = false := by
  rw [Bool.eq_false_iff, Ne, aStarLt_iff hy hx]
  rw [aStarLt_iff hx hy] at h
  rintro (h2 | ⟨heq2, hc2⟩) <;> rcases h with h1 | ⟨heq1, hc1⟩
  · exact lt_asymm h1 h2
  · exact absurd h2 (by rw [heq1]; exact lt_irrefl _)
  · exact absurd h1 (by rw [heq2]; exact lt_irrefl _)
  · omega

/-- Transitivity of the complement of the heap-entry order on well-formed
entries. -/
theorem aStarLt_negtrans {x y z : FVal × Cell} (hx : x.1.denOk)
    (hy : y.1.denOk) (hz : z.1.denOk) (hxy : aStarLt x y = false)
    (hyz : aStarLt y z = false) : aStarLt x z = false := by
  rw [Bool.eq_false_iff, Ne, aStarLt_iff hx hz]
  rw [Bool.eq_false_iff, Ne, aStarLt_iff hx hy] at hxy
  rw [Bool.eq_false_iff, Ne, aStarLt_iff hy hz] at hyz
  push_neg at hxy hyz
  obtain ⟨hxy1, hxy2⟩ := hxy
  obtain ⟨hyz1, hyz2⟩ := hyz
  have hyx : y.1.keyE ≤ x.1.keyE := hxy1
  have hzy : z.1.keyE ≤ y.1.keyE := hyz1
  rintro (h | ⟨heq, hcell⟩)
  · exact absurd h (not_lt.mpr (hzy.trans hyx))
  · have hxy_eq : x.1.keyE = y.1.keyE :=
      le_antisymm (by rw [heq]; exact hzy) hyx
    have hyz_eq : y.1.keyE = z.1.keyE := by rw [← hxy_eq, heq]
    have hc1 := hxy2 hxy_eq
    have hc2 := hyz2 hyz_eq
    omega

/-- `popMinWith_min`, with the order hypotheses needed only on the list's
own elements. -/
theorem popMinWith_min_local {α : Type} (lt : α → α → Bool) :
    ∀ (l : List α),
      (∀ x ∈ l, ∀ y ∈ l, lt x y = true → lt y x = false) →
      (∀ x ∈ l, ∀ y ∈ l, ∀ z ∈ l,
        lt x y = false → lt y z = false → lt x z = false) →
      ∀ (e : α) (rest : List α),
        popMinWith lt l = some (e, rest) → ∀ x ∈ l, lt x e = false := by
  intro l
  induction l with
  | nil => intro _ _ e rest h; simp [popMinWith] at h
  | cons a tail ih =>
    intro hA hT e rest h x hx
    have hmemself : a ∈ a :: tail := List.mem_cons_self a tail
    have hirr : ∀ w ∈ a :: tail, lt w w = false := by
      intro w hw
      by_cases hww : lt w w = true
      · exact absurd hww (by simp [hA w hw w hw hww])
      · exact Bool.eq_false_iff.mpr hww
    simp only [popMinWith] at h
    cases htail : popMinWith lt tail with
    | none =>
      rw [htail] at h
      dsimp only at h
      simp only [Option.some.injEq, Prod.mk.injEq] at h
      obtain ⟨he, _⟩ := h
      have htl : tail = [] := (popMinWith_none_iff lt tail).mp htail
      subst htl; subst he
      rcases List.mem_singleton.mp hx with rfl
      exact hirr x hx
    | some p =>
      rw [htail] at h
      dsimp only at h
      obtain ⟨m, rest2⟩ := p
      have hmtail : m ∈ tail := popMinWith_mem lt tail m rest2 htail
      have hmmem : m ∈ a :: tail := List.mem_cons_of_mem a hmtail
      have ihm : ∀ w ∈ tail, lt w m = false :=
        ih (fun u hu v hv => hA u (List.mem_cons_of_mem a hu) v
            (List.mem_cons_of_mem a hv))
          (fun u hu v hv w hw => hT u (List.mem_cons_of_mem a hu) v
            (List.mem_cons_of_mem a hv) w (List.mem_cons_of_mem a hw))
          m rest2 htail
      by_cases hlt : lt m a
      · rw [if_pos hlt] at h
        simp only [Option.some.injEq, Prod.mk.injEq] at h
        obtain ⟨he, _⟩ := h
        subst he
        rcases List.mem_cons.mp hx with rfl | hmem
        · exact hA m hmmem x hx hlt
        · exact ihm x hmem
      · rw [if_neg hlt] at h
        simp only [Option.some.injEq, Prod.mk.injEq] at h
        obtain ⟨he, _⟩ := h
        subst he
        rcases List.mem_cons.mp hx with rfl | hmem
        · exact hirr x hx
        · exact hT x (List.mem_cons_of_mem a hmem) m hmmem a hmemself
            (ihm x hmem) (Bool.eq_false_iff.mpr hlt)

/-- Claim C9 counterexample: on `plC9` (3x3 grid, center occupied), searching
from `(1, 0)` to `(1, 2)`, the frontier after expanding the start holds — in
insertion order — `(2, 0)`, `(0, 0)`, `(2, 1)`, `(0, 1)`, where the last two
carry the identical f-score `1.414 + sqrt 2`.  The next pop returns the entry
for `(0, 1)`, the LATER-inserted of the two tied entries: ties are broken by
the cell tuple Python compares, not by insertion order. -/
theorem claim_C9_counterexample :
    (aStarStepState plC9 plC9.map (1, 2) (aStarInit (1, 0) (1, 2))).openList
      = [(⟨some ⟨1, 1⟩, 5⟩, (2, 0)), (⟨some ⟨1, 1⟩, 5⟩, (0, 0)),
         (⟨some ⟨707, 500⟩, 2⟩, (2, 1)), (⟨some ⟨707, 500⟩, 2⟩, (0, 1))] ∧
    popMinWith aStarLt
        [(⟨some ⟨1, 1⟩, 5⟩, ((2 : ℤ), (0 : ℤ))), (⟨some ⟨1, 1⟩, 5⟩, (0, 0)),
         (⟨some ⟨707, 500⟩, 2⟩, (2, 1)), (⟨some ⟨707, 500⟩, 2⟩, (0, 1))]
      = some ((⟨some ⟨707, 500⟩, 2⟩, (0, 1)),
         [(⟨some ⟨1, 1⟩, 5⟩, (2, 0)), (⟨some ⟨1, 1⟩, 5⟩, (0, 0)),
          (⟨some ⟨707, 500⟩, 2⟩, (2, 1))]) ∧
    fvalEq ⟨some ⟨707, 500⟩, 2⟩ ⟨some ⟨707, 500⟩, 2⟩ = true := by
  refine ⟨by decide, by decide, by decide⟩

/-- Claim C9 amended: the frontier always pops an entry that is minimal in
the lexicographic order Python's heap compares with — minimum f-score
first, ties between real-equal f-scores broken by the smaller `(x, y)` cell
tuple, not by insertion order.  Stated for any frontier of well-formed
entries (every reachable frontier is one): the popped entry belongs to the
list, exactly it is removed, no entry is strictly below it, its f-score is
a minimum, and no real-equal entry has a smaller cell. -/
theorem claim_C9_pop_lex_min (st : AState)
    (hwf : ∀ e ∈ st.openList, FVal.denOk e.1) (e : FVal × Cell)
    (rest : List (FVal × Cell))
    (hpop : popMinWith aStarLt st.openList = some (e, rest)) :
    e ∈ st.openList ∧ st.openList.Perm (e :: rest) ∧
    (∀ x ∈ st.openList, aStarLt x e = false) ∧
    (∀ x ∈ st.openList, FVal.ble e.1 x.1 = true) ∧
    (∀ x ∈ st.openList, fvalEq x.1 e.1 = true → cellLtB x.2 e.2 = false) := by
  have hmem := popMinWith_mem _ _ _ _ hpop
  have hperm := popMinWith_perm _ _ _ _ hpop
  have hmin := popMinWith_min_local aStarLt st.openList
    (fun x hx y hy => aStarLt_asymm (hwf x hx) (hwf y hy))
    (fun x hx y hy z hz => aStarLt_negtrans (hwf x hx) (hwf y hy) (hwf z hz))
    e rest hpop
  refine ⟨hmem, hperm, hmin, ?_, ?_⟩
  · intro x hx
    have h := hmin x hx
    simp only [aStarLt, Bool.or_eq_false_iff, Bool.and_eq_false_iff] at h
    have hflt : fvalLt x.1 e.1 = false := h.1
    rw [fvalLt] at hflt
    simpa using hflt
  · intro x hx hfeq
    have h := hmin x hx
    simp only [aStarLt, Bool.or_eq_false_iff, Bool.and_eq_false_iff] at h
    rcases h.2 with h1 | h2
    · exact absurd hfeq (by simp [h1])
    · exact h2

/-- Concrete instance of Claim C9's amended theorem, at the tied frontier of
the counterexample run. -/
theorem claim_C9_witness :
    ((⟨some ⟨707, 500⟩, 2⟩, ((0 : ℤ), (1 : ℤ))) ∈
      (aStarStepState plC9 plC9.map (1, 2) (aStarInit (1, 0) (1, 2))).openList) ∧
    ((aStarStepState plC9 plC9.map (1, 2)
        (aStarInit (1, 0) (1, 2))).openList.Perm
      ((⟨some ⟨707, 500⟩, 2⟩, ((0 : ℤ), (1 : ℤ))) ::
        [(⟨some ⟨1, 1⟩, 5⟩, (2, 0)), (⟨some ⟨1, 1⟩, 5⟩, (0, 0)),
         (⟨some ⟨707, 500⟩, 2⟩, (2, 1))])) ∧
    (∀ x ∈ (aStarStepState plC9 plC9.map (1, 2)
        (aStarInit (1, 0) (1, 2))).openList,
      aStarLt x (⟨some ⟨707, 500⟩, 2⟩, ((0 : ℤ), (1 : ℤ))) = false) ∧
    (∀ x ∈ (aStarStepState plC9 plC9.map (1, 2)
        (aStarInit (1, 0) (1, 2))).openList,
      FVal.ble ⟨some ⟨707, 500⟩, 2⟩ x.1 = true) ∧
    (∀ x ∈ (aStarStepState plC9 plC9.map (1, 2)
        (aStarInit (1, 0) (1, 2))).openList,
      fvalEq x.1 ⟨some ⟨707, 500⟩, 2⟩ = true →
        cellLtB x.2 ((0 : ℤ), (1 : ℤ)) = false) :=
  claim_C9_pop_lex_min
    (aStarStepState plC9 plC9.map (1, 2) (aStarInit (1, 0) (1, 2)))
    (by decide) (⟨some ⟨707, 500⟩, 2⟩, ((0 : ℤ), (1 : ℤ)))
    [(⟨some ⟨1, 1⟩, 5⟩, (2, 0)), (⟨some ⟨1, 1⟩, 5⟩, (0, 0)),
     (⟨some ⟨707, 500⟩, 2⟩, (2, 1))] (by decide)

/-- Core of the heuristic bound: for nonnegative legs, the Euclidean length
is at most the octile distance with exact √2 diagonals. -/
theorem sqrt_sq_add_sq_le_octile (A B : ℝ) (hA : 0 ≤ A) (hB : 0 ≤ B) :
    Real.sqrt (A ^ 2 + B ^ 2) ≤ (max A B - min A B) + Real.sqrt 2 * min A B := by
  have h2 : Real.sqrt 2 ^ 2 = 2 := Real.sq_sqrt (by norm_num)
  have hs2 : (1 : ℝ) ≤ Real.sqrt 2 := by nlinarith [Real.sqrt_nonneg 2]
  rcases le_total B A with h | h
  · rw [max_eq_left h, min_eq_right h]
    rw [Real.sqrt_le_iff]
    constructor
    · nlinarith [mul_nonneg (Real.sqrt_nonneg 2) hB]
    · nlinarith [h2,
        mul_nonneg (mul_nonneg hB (sub_nonneg.mpr h)) (sub_nonneg.mpr hs2)]
  · rw [max_eq_right h, min_eq_left h]
    rw [Real.sqrt_le_iff]
    constructor
    · nlinarith [mul_nonneg (Real.sqrt_nonneg 2) hA]
    · nlinarith [h2,
        mul_nonneg (mul_nonneg hA (sub_nonneg.mpr h)) (sub_nonneg.mpr hs2)]

/-- The Euclidean heuristic never exceeds the exact-√2 octile distance. -/
theorem heuristic_le_octileDistSpec (a b : Cell) :
    heuristic a b ≤ octileDistSpec a b := by
  have hx : (((b.1 - a.1).natAbs : ℕ) : ℝ) ^ 2 = (((b.1 - a.1 : ℤ)) : ℝ) ^ 2 := by
    rw [Int.cast_natAbs, Int.cast_abs, sq_abs]
  have hy : (((b.2 - a.2).natAbs : ℕ) : ℝ) ^ 2 = (((b.2 - a.2 : ℤ)) : ℝ) ^ 2 := by
    rw [Int.cast_natAbs, Int.cast_abs, sq_abs]
  rw [heuristic, octileDistSpec, ← hx, ← hy]
  exact sqrt_sq_add_sq_le_octile _ _ (Nat.cast_nonneg _) (Nat.cast_nonneg _)

/-- Claim C2 counterexample: on the free 2x2 grid, A* from `(0, 0)` to
`(1, 1)` returns the single diagonal step, whose total cost under the code's
step prices is `1.414 = 707/500`; the claim's analytic √2-weighted optimal
distance for this pair is `sqrt 2`, and `707/500 ≠ sqrt 2` — the returned
cost does not equal the claimed optimum, and since `707/500 < sqrt 2` the
Euclidean estimate `sqrt 2` for this pair exceeds the cost the code both
charges and achieves for it. -/
theorem claim_C2_counterexample :
    plFree2.a_star plFree2.map (0, 0) (1, 1) = [(0, 0), (1, 1)] ∧
    pathCost [((0 : ℤ), (0 : ℤ)), (1, 1)] = ⟨707, 500⟩ ∧
    (pathCost [((0 : ℤ), (0 : ℤ)), (1, 1)]).toReal = 707 / 500 ∧
    octileDistSpec (0, 0) (1, 1) = Real.sqrt 2 ∧
    heuristic (0, 0) (1, 1) = Real.sqrt 2 ∧
    (707 : ℝ) / 500 < Real.sqrt 2 ∧
    (707 : ℝ) / 500 ≠ Real.sqrt 2 := by
  have h2 : Real.sqrt 2 ^ 2 = 2 := Real.sq_sqrt (by norm_num)
  have hlt : (707 : ℝ) / 500 < Real.sqrt 2 := by
    nlinarith [Real.sqrt_nonneg 2]
  refine ⟨by decide, by decide, ?_, ?_, ?_, hlt, ne_of_lt hlt⟩
  · have hc : pathCost [((0 : ℤ), (0 : ℤ)), (1, 1)] = ⟨707, 500⟩ := by decide
    rw [hc]
    simp [Frac.toReal]
    try norm_num
  · simp [octileDistSpec]
  · simp [heuristic]
    try norm_num

/-- Claim C2 amended: the code prices a diagonal step at `1.414`, not √2.
The Euclidean heuristic is admissible with respect to the exact √2-weighted
octile distance of the spec (first conjunct, for all cell pairs), but with
respect to the code's own step costs it can overestimate: between diagonal
neighbors it estimates `sqrt 2`, strictly more than the `1.414` the code
charges — and achieves — for that move (remaining conjuncts). -/
theorem claim_C2_heuristic_vs_costs :
    (∀ a b : Cell, heuristic a b ≤ octileDistSpec a b) ∧
    plFree2.a_star plFree2.map (0, 0) (1, 1) = [(0, 0), (1, 1)] ∧
    (pathCost [((0 : ℤ), (0 : ℤ)), (1, 1)]).toReal = 707 / 500 ∧
    (707 : ℝ) / 500 < heuristic (0, 0) (1, 1) := by
  have h2 : Real.sqrt 2 ^ 2 = 2 := Real.sq_sqrt (by norm_num)
  refine ⟨heuristic_le_octileDistSpec, by decide, ?_, ?_⟩
  · have hc : pathCost [((0 : ℤ), (0 : ℤ)), (1, 1)] = ⟨707, 500⟩ := by decide
    rw [hc]
    simp [Frac.toReal]
    try norm_num
  · have hh : heuristic (0, 0) (1, 1) = Real.sqrt 2 := by
      simp [heuristic]
      try norm_num
    rw [hh]
    nlinarith [Real.sqrt_nonneg 2]

/-! ## The A* loop invariant -/

theorem lookupA_mem {α β : Type} [DecidableEq α] :
    ∀ (l : List (α × β)) (k : α) (v : β), lookupA l k = some v → (k, v) ∈ l := by
  intro l
  induction l with
  | nil => intro k v h; simp [lookupA] at h
  | cons p rest ih =>
    intro k v h
    simp only [lookupA] at h
    by_cases hk : k = p.1
    · rw [if_pos hk] at h
      simp only [Option.some.injEq] at h
      subst h; subst hk
      exact List.mem_cons_self _ _
    · rw [if_neg hk] at h
      exact List.mem_cons_of_mem p (ih k v h)

theorem setA_mem {α β : Type} [DecidableEq α] (l : List (α × β)) (k : α)
    (v : β) : ∀ p ∈ setA l k v, p ∈ l ∨ p = (k, v) := by
  intro p hp
  rcases List.mem_append.mp hp with hl | hr
  · exact Or.inl (List.mem_of_mem_filter hl)
  · exact Or.inr (List.mem_singleton.mp hr)

theorem expandOne_inv (pl : PathPlanner) (g : Grid) (goal current : Cell)
    (st : AState) (off : ℤ × ℤ) (hoff : off ∈ offs)
    (hcur : okCell pl g current) (h : AInv pl g st) :
    AInv pl g (expandOne pl g goal current st off) := by
  unfold expandOne
  dsimp only
  split
  · exact h
  · rename_i hbounds
    split
    · exact h
    · rename_i hfree
      push_neg at hbounds hfree
      have hnb : okCell pl g (current.1 + off.1, current.2 + off.2) := by
        refine ⟨⟨?_, ?_, ?_, ?_⟩, hfree.1⟩ <;> omega
      have hcf : ∀ kv ∈ setA st.cameFrom (current.1 + off.1, current.2 + off.2)
          current, okCell pl g kv.1 ∧ okCell pl g kv.2 ∧ stepOff kv.2 kv.1 := by
        intro kv hkv
        rcases setA_mem _ _ _ kv hkv with hold | hnew
        · exact h.2 kv hold
        · subst hnew
          refine ⟨hnb, hcur, ?_⟩
          simp only [stepOff]
          have h1 : current.1 + off.1 - current.1 = off.1 := by ring
          have h2 : current.2 + off.2 - current.2 = off.2 := by ring
          rw [h1, h2]
          exact hoff
      have hopen : ∀ (fv : FVal),
          ∀ e ∈ st.openList ++ [(fv, ((current.1 + off.1 : ℤ), (current.2 + off.2 : ℤ)))],
            okCell pl g e.2 := by
        intro fv e he
        rcases List.mem_append.mp he with hl | hr
        · exact h.1 e hl
        · rw [List.mem_singleton.mp hr]
          exact hnb
      by_cases hmem : ((current.1 + off.1 : ℤ), (current.2 + off.2 : ℤ)) ∈
          List.map (fun e => e.2) st.openList
      · rw [if_pos hmem]
        split <;> split
        all_goals
          first
          | exact ⟨h.1, hcf⟩
          | exact h
      · rw [if_neg hmem]
        split <;> split
        all_goals
          first
          | exact ⟨fun e he => hopen _ e he, hcf⟩
          | exact h

theorem expandList_inv (pl : PathPlanner) (g : Grid) (goal current : Cell) :
    ∀ (l : List (ℤ × ℤ)), (∀ o ∈ l, o ∈ offs) →
      ∀ (st : AState), okCell pl g current → AInv pl g st →
        AInv pl g (l.foldl (expandOne pl g goal current) st) := by
  intro l
  induction l with
  | nil => intro _ st _ h; exact h
  | cons o rest ih =>
    intro hsub st hcur h
    simp only [List.foldl_cons]
    exact ih (fun x hx => hsub x (List.mem_cons_of_mem o hx)) _ hcur
      (expandOne_inv pl g goal current st o (hsub o (List.mem_cons_self o rest))
        hcur h)

theorem expandAll_inv (pl : PathPlanner) (g : Grid) (goal current : Cell)
    (st : AState) (hcur : okCell pl g current) (h : AInv pl g st) :
    AInv pl g (expandAll pl g goal current st) :=
  expandList_inv pl g goal current offs (fun _ ho => ho) st hcur h

theorem reconAux_ok (pl : PathPlanner) (g : Grid)
    (cf : List (Cell × Cell))
    (hcf : ∀ kv ∈ cf, okCell pl g kv.1 ∧ okCell pl g kv.2 ∧ stepOff kv.2 kv.1) :
    ∀ (fuel : ℕ) (c : Cell), okCell pl g c →
      (∀ x ∈ reconAux cf fuel c, okCell pl g x) ∧
      List.Chain' (fun a b => stepOff b a) (reconAux cf fuel c) ∧
      (reconAux cf fuel c).head? = some c := by
  intro fuel
  induction fuel with
  | zero =>
    intro c hc
    refine ⟨?_, ?_, rfl⟩
    · intro x hx; rcases List.mem_singleton.mp hx with rfl; exact hc
    · simp [reconAux]
  | succ n ih =>
    intro c hc
    simp only [reconAux]
    cases hl : lookupA cf c with
    | none =>
      refine ⟨?_, ?_, rfl⟩
      · intro x hx; rcases List.mem_singleton.mp hx with rfl; exact hc
      · simp
    | some p =>
      have hmem := lookupA_mem cf c p hl
      obtain ⟨_, hp, hstep⟩ := hcf (c, p) hmem
      obtain ⟨ihok, ihchain, ihhead⟩ := ih p hp
      refine ⟨?_, ?_, rfl⟩
      · intro x hx
        rcases List.mem_cons.mp hx with rfl | hx2
        · exact hc
        · exact ihok x hx2
      · rw [List.chain'_cons']
        refine ⟨?_, ihchain⟩
        intro y hy
        rw [ihhead] at hy
        rcases Option.mem_some_iff.mp hy with rfl
        exact hstep

theorem reconstruct_ok (pl : PathPlanner) (g : Grid)
    (cf : List (Cell × Cell)) (c : Cell)
    (hcf : ∀ kv ∈ cf, okCell pl g kv.1 ∧ okCell pl g kv.2 ∧ stepOff kv.2 kv.1)
    (hc : okCell pl g c) :
    (∀ x ∈ reconstruct cf c, okCell pl g x) ∧
      List.Chain' stepOff (reconstruct cf c) := by
  obtain ⟨hok, hchain, _⟩ := reconAux_ok pl g cf hcf (cf.length + 1) c hc
  constructor
  · intro x hx
    exact hok x (List.mem_reverse.mp hx)
  · rw [reconstruct, List.chain'_reverse]
    exact hchain

theorem aStarStep_inl_inv (pl : PathPlanner) (g : Grid) (goal : Cell)
    (st st2 : AState) (h : AInv pl g st)
    (hstep : aStarStep pl g goal st = Sum.inl st2) : AInv pl g st2 := by
  unfold aStarStep at hstep
  cases hpop : popMinWith aStarLt st.openList with
  | none => rw [hpop] at hstep; simp at hstep
  | some pr =>
    obtain ⟨e, rest⟩ := pr
    rw [hpop] at hstep
    dsimp only at hstep
    by_cases hgoal : e.2 = goal
    · rw [if_pos hgoal] at hstep; simp at hstep
    · rw [if_neg hgoal] at hstep
      simp only [Sum.inl.injEq] at hstep
      subst hstep
      have hperm := popMinWith_perm aStarLt st.openList e rest hpop
      have hcur : okCell pl g e.2 :=
        h.1 e (popMinWith_mem aStarLt st.openList e rest hpop)
      apply expandAll_inv pl g goal e.2 _ hcur
      constructor
      · intro x hx
        exact h.1 x (hperm.mem_iff.mpr (List.mem_cons_of_mem e hx))
      · exact h.2

theorem aStarStep_inr_ok (pl : PathPlanner) (g : Grid) (goal : Cell)
    (st : AState) (r : List Cell) (h : AInv pl g st)
    (hstep : aStarStep pl g goal st = Sum.inr r) :
    (∀ c ∈ r, okCell pl g c) ∧ List.Chain' stepOff r := by
  unfold aStarStep at hstep
  cases hpop : popMinWith aStarLt st.openList with
  | none =>
    rw [hpop] at hstep
    simp only [Sum.inr.injEq] at hstep
    subst hstep
    exact ⟨by intro c hc; simp at hc, List.chain'_nil⟩
  | some pr =>
    obtain ⟨e, rest⟩ := pr
    rw [hpop] at hstep
    dsimp only at hstep
    by_cases hgoal : e.2 = goal
    · rw [if_pos hgoal] at hstep
      simp only [Sum.inr.injEq] at hstep
      subst hstep
      exact reconstruct_ok pl g st.cameFrom e.2 h.2
        (h.1 e (popMinWith_mem aStarLt st.openList e rest hpop))
    · rw [if_neg hgoal] at hstep
      simp at hstep

theorem aStarLoop_ok (pl : PathPlanner) (g : Grid) (goal : Cell) :
    ∀ (fuel : ℕ) (st : AState), AInv pl g st →
      (∀ c ∈ aStarLoop pl g goal fuel st, okCell pl g c) ∧
      List.Chain' stepOff (aStarLoop pl g goal fuel st) := by
  intro fuel
  induction fuel with
  | zero =>
    intro st _
    exact ⟨by intro c hc; simp [aStarLoop] at hc, by simp [aStarLoop]⟩
  | succ n ih =>
    intro st h
    simp only [aStarLoop]
    cases hstep : aStarStep pl g goal st with
    | inr r => exact aStarStep_inr_ok pl g goal st r h hstep
    | inl st2 => exact ih st2 (aStarStep_inl_inv pl g goal st st2 h hstep)

/-- Every cell of a successful `_a_star` result is in bounds and free, and
consecutive result cells are one 8-connected step apart. -/
theorem a_star_ok (pl : PathPlanner) (g : Grid) (start goal : Cell)
    (hin : inGrid pl start) :
    (∀ c ∈ pl.a_star g start goal, okCell pl g c) ∧
      List.Chain' stepOff (pl.a_star g start goal) := by
  unfold PathPlanner.a_star
  split
  · exact ⟨by intro c hc; simp at hc, List.chain'_nil⟩
  · rename_i hocc
    push_neg at hocc
    apply aStarLoop_ok
    constructor
    · intro e he
      rcases List.mem_singleton.mp he with rfl
      exact ⟨hin, hocc.1⟩
    · intro kv hkv
      simp [aStarInit] at hkv

theorem meters_to_grid_inGrid (pl : PathPlanner) (p : Pt)
    (hw : 0 < pl.width) (hh : 0 < pl.height) :
    inGrid pl (pl.meters_to_grid p) := by
  unfold PathPlanner.meters_to_grid inGrid
  dsimp only
  refine ⟨?_, ?_, ?_, ?_⟩ <;> omega

theorem half_odd_tdiv (c K : ℤ) (hc : 0 ≤ c) (hK : 0 < K) :
    ((2 * c + 1) * K).tdiv (2 * K) = c := by
  have hnum : (2 * c + 1) * K = K + c * (2 * K) := by ring
  rw [hnum, Int.tdiv_eq_ediv (by nlinarith) (by omega),
    Int.add_mul_ediv_right _ _ (by omega : (2 : ℤ) * K ≠ 0),
    Int.ediv_eq_zero_of_lt hK.le (by omega), zero_add]

theorem grid_to_meters_roundtrip (pl : PathPlanner) (c : Cell)
    (hres : 0 < pl.resolution.num * pl.resolution.den)
    (hin : inGrid pl c) :
    pl.meters_to_grid (pl.grid_to_meters c) = c := by
  obtain ⟨c1, c2⟩ := c
  obtain ⟨h1, h2, h3, h4⟩ := hin
  dsimp only at h1 h2 h3 h4
  unfold PathPlanner.grid_to_meters PathPlanner.meters_to_grid
  dsimp only [Frac.ofInt, Frac.add, Frac.mul, Frac.div, Frac.trunc]
  have key : ∀ x : ℤ, 0 ≤ x →
      ((x * 2 + 1 * 1) * pl.resolution.num * pl.resolution.den).tdiv
        (1 * 2 * pl.resolution.den * pl.resolution.num) = x := by
    intro x hx
    have e1 : (x * 2 + 1 * 1) * pl.resolution.num * pl.resolution.den
        = (2 * x + 1) * (pl.resolution.num * pl.resolution.den) := by ring
    have e2 : 1 * 2 * pl.resolution.den * pl.resolution.num
        = 2 * (pl.resolution.num * pl.resolution.den) := by ring
    rw [e1, e2, half_odd_tdiv x _ hx hres]
  rw [key c1 h1, key c2 h3]
  refine Prod.ext ?_ ?_ <;> dsimp only <;> omega

theorem adjacent_clear (pl : PathPlanner) (g : Grid) (a b : Cell)
    (hres : 0 < pl.resolution.num * pl.resolution.den)
    (hina : inGrid pl a) (hinb : inGrid pl b)
    (hfree : cellAt g a ≠ 1) (hstep : stepOff a b) :
    pl.is_path_clear (pl.grid_to_meters a) (pl.grid_to_meters b) g = true := by
  obtain ⟨a1, a2⟩ := a
  obtain ⟨b1, b2⟩ := b
  unfold PathPlanner.is_path_clear
  rw [grid_to_meters_roundtrip pl _ hres hina,
    grid_to_meters_roundtrip pl _ hres hinb]
  dsimp only
  simp only [stepOff, offs, List.mem_cons, List.mem_singleton,
    Prod.mk.injEq, List.not_mem_nil, or_false] at hstep
  rcases hstep with ⟨e1, e2⟩ | ⟨e1, e2⟩ | ⟨e1, e2⟩ | ⟨e1, e2⟩ |
    ⟨e1, e2⟩ | ⟨e1, e2⟩ | ⟨e1, e2⟩ | ⟨e1, e2⟩ <;>
    (first
      | have hb1 : b1 = a1 - 1 := by omega
      | have hb1 : b1 = a1 + 1 := by omega
      | have hb1 : b1 = a1 := by omega) <;>
    subst hb1 <;>
    (first
      | have hb2 : b2 = a2 - 1 := by omega
      | have hb2 : b2 = a2 + 1 := by omega
      | have hb2 : b2 = a2 := by omega) <;>
    subst hb2 <;>
    simp_all [bresAux, cellAt, lt_sub_iff_add_lt, add_lt_iff_neg_right,
      lt_self_iff_false, eq_sub_iff_add_eq]

theorem ptEq_refl (a : Pt) : ptEq a a = true := by
  simp [ptEq, Frac.beq]

theorem getD_mem_of_lt {α : Type} (l : List α) (i : ℕ) (d : α)
    (h : i < l.length) : l.getD i d ∈ l := by
  rw [List.getD_eq_get l d h]
  exact List.get_mem l i h

theorem chain'_of_getD {α : Type} (R : α → α → Prop) (d : α) (l : List α)
    (h : ∀ k, k + 1 < l.length → R (l.getD k d) (l.getD (k + 1) d)) :
    List.Chain' R l := by
  rw [List.chain'_iff_get]
  intro i hi
  have hi2 : i + 1 < l.length := by omega
  have := h i hi2
  rwa [List.getD_eq_get l d (by omega), List.getD_eq_get l d hi2] at this

theorem chain'_and_of_forall {α : Type} {R : α → α → Prop} {P : α → Prop} :
    ∀ {l : List α}, List.Chain' R l → (∀ w ∈ l, P w) →
      List.Chain' (fun u v => R u v ∧ P u ∧ P v) l := by
  intro l
  induction l with
  | nil => intro _ _; exact List.chain'_nil
  | cons a t ih =>
    intro hc hp
    cases t with
    | nil => simp
    | cons b t2 =>
      rw [List.chain'_cons] at hc ⊢
      exact ⟨⟨hc.1, hp a (by simp), hp b (by simp)⟩,
        ih hc.2 fun w hw => hp w (List.mem_cons_of_mem a hw)⟩

theorem findJumpAux_spec (pl : PathPlanner) (g : Grid) (path : List Pt)
    (idx : ℕ) : ∀ n i, findJumpAux pl g path idx n = some i →
      idx < i ∧ i ≤ n ∧
        pl.is_path_clear (path.getD idx (⟨0, 1⟩, ⟨0, 1⟩))
          (path.getD i (⟨0, 1⟩, ⟨0, 1⟩)) g = true := by
  intro n
  induction n with
  | zero => intro i h; simp [findJumpAux] at h
  | succ m ih =>
    intro i h
    simp only [findJumpAux] at h
    split at h
    · exact absurd h (by simp)
    · rename_i hle
      split at h
      · rename_i hclear
        obtain rfl : m + 1 = i := Option.some.inj h
        exact ⟨by omega, le_refl _, hclear⟩
      · obtain ⟨h1, h2, h3⟩ := ih i h
        exact ⟨h1, by omega, h3⟩

theorem simplifyAux_ok (pl : PathPlanner) (g : Grid) (path : List Pt)
    (hadj : ∀ k, k + 1 < path.length →
      pl.is_path_clear (path.getD k (⟨0, 1⟩, ⟨0, 1⟩))
        (path.getD (k + 1) (⟨0, 1⟩, ⟨0, 1⟩)) g = true) :
    ∀ (fuel idx : ℕ) (s : List Pt),
      List.Chain' (fun u v => pl.is_path_clear u v g = true) s →
      (∀ w ∈ s, w ∈ path) →
      (idx < path.length - 1 →
        s.getLastD (⟨0, 1⟩, ⟨0, 1⟩) = path.getD idx (⟨0, 1⟩, ⟨0, 1⟩)) →
      List.Chain' (fun u v => pl.is_path_clear u v g = true)
          (simplifyAux pl g path fuel idx s) ∧
        ∀ w ∈ simplifyAux pl g path fuel idx s, w ∈ path := by
  intro fuel
  induction fuel with
  | zero => intro idx s hc hm _; exact ⟨hc, hm⟩
  | succ n ih =>
    intro idx s hc hm hlast
    by_cases hidx : idx < path.length - 1
    · simp only [simplifyAux]
      rw [if_pos hidx]
      specialize hlast hidx
      cases hfind : findJumpAux pl g path idx (path.length - 1) with
      | none =>
        dsimp only
        have hpt : ptEq (path.getD idx (⟨0, 1⟩, ⟨0, 1⟩))
            (s.getLastD (⟨0, 1⟩, ⟨0, 1⟩)) = true := by
          rw [hlast]; exact ptEq_refl _
        rw [if_pos (Or.inr hpt), if_pos (show idx + 1 < path.length by omega)]
        dsimp only
        apply ih
        · rw [List.chain'_append]
          refine ⟨hc, List.chain'_singleton _, ?_⟩
          intro x hx y hy
          simp only [List.head?_cons, Option.mem_some_iff] at hy
          subst hy
          have hxval : s.getLastD (⟨0, 1⟩, ⟨0, 1⟩) = x := by
            rw [List.getLastD_eq_getLast?, Option.mem_def.mp hx]
            rfl
          rw [← hxval, hlast]
          exact hadj idx (by omega)
        · intro w hw
          rcases List.mem_append.mp hw with h1 | h2
          · exact hm w h1
          · rw [List.mem_singleton.mp h2]
            exact getD_mem_of_lt path (idx + 1) _ (by omega)
        · intro h2
          rw [List.getLastD_concat]
      | some i =>
        dsimp only
        obtain ⟨hlt, hle, hclear⟩ := findJumpAux_spec pl g path idx _ i hfind
        have hedge : ∀ x ∈ s.getLast?,
            ∀ y ∈ [path.getD i (⟨0, 1⟩, ⟨0, 1⟩)].head?,
              pl.is_path_clear x y g = true := by
          intro x hx y hy
          simp only [List.head?_cons, Option.mem_some_iff] at hy
          subst hy
          have hxval : s.getLastD (⟨0, 1⟩, ⟨0, 1⟩) = x := by
            rw [List.getLastD_eq_getLast?, Option.mem_def.mp hx]
            rfl
          rw [← hxval, hlast]
          exact hclear
        have hmem1 : ∀ w ∈ s ++ [path.getD i (⟨0, 1⟩, ⟨0, 1⟩)], w ∈ path := by
          intro w hw
          rcases List.mem_append.mp hw with h1 | h2
          · exact hm w h1
          · rw [List.mem_singleton.mp h2]
            exact getD_mem_of_lt path i _ (by omega)
        have hchain1 : List.Chain' (fun u v => pl.is_path_clear u v g = true)
            (s ++ [path.getD i (⟨0, 1⟩, ⟨0, 1⟩)]) := by
          rw [List.chain'_append]
          exact ⟨hc, List.chain'_singleton _, hedge⟩
        by_cases hi : i = path.length - 1
        · rw [if_pos (Or.inl hi), if_neg (show ¬ i + 1 < path.length by omega)]
          dsimp only
          apply ih
          · exact hchain1
          · exact hmem1
          · intro hcontr
            exact absurd hcontr (by omega)
        · have hpt : ptEq (path.getD i (⟨0, 1⟩, ⟨0, 1⟩))
              ((s ++ [path.getD i (⟨0, 1⟩, ⟨0, 1⟩)]).getLastD
                (⟨0, 1⟩, ⟨0, 1⟩)) = true := by
            rw [List.getLastD_concat]; exact ptEq_refl _
          rw [if_pos (Or.inr hpt), if_pos (show i + 1 < path.length by omega)]
          dsimp only
          apply ih
          · rw [List.chain'_append]
            refine ⟨hchain1, List.chain'_singleton _, ?_⟩
            intro x hx y hy
            simp only [List.head?_cons, Option.mem_some_iff] at hy
            subst hy
            have hxval : (s ++ [path.getD i (⟨0, 1⟩, ⟨0, 1⟩)]).getLastD
                (⟨0, 1⟩, ⟨0, 1⟩) = x := by
              rw [List.getLastD_eq_getLast?, Option.mem_def.mp hx]
              rfl
            rw [← hxval, List.getLastD_concat]
            exact hadj i (by omega)
          · intro w hw
            rcases List.mem_append.mp hw with h1 | h2
            · exact hmem1 w h1
            · rw [List.mem_singleton.mp h2]
              exact getD_mem_of_lt path (i + 1) _ (by omega)
          · intro h2
            rw [List.getLastD_concat]
    · simp only [simplifyAux]
      rw [if_neg hidx]
      exact ⟨hc, hm⟩

theorem simplify_path_ok (pl : PathPlanner) (g : Grid) (path : List Pt)
    (hadj : ∀ k, k + 1 < path.length →
      pl.is_path_clear (path.getD k (⟨0, 1⟩, ⟨0, 1⟩))
        (path.getD (k + 1) (⟨0, 1⟩, ⟨0, 1⟩)) g = true) :
    List.Chain' (fun u v => pl.is_path_clear u v g = true)
        (pl.simplify_path path g) ∧
      ∀ w ∈ pl.simplify_path path g, w ∈ path := by
  unfold PathPlanner.simplify_path
  split
  · exact ⟨chain'_of_getD _ _ _ hadj, fun w hw => hw⟩
  · rename_i hlen
    push_neg at hlen
    apply simplifyAux_ok pl g path hadj
    · exact List.chain'_singleton _
    · intro w hw
      rw [List.mem_singleton.mp hw]
      exact getD_mem_of_lt path 0 _ (by omega)
    · intro _
      rfl

/-- C8: for every path returned by `plan_path` after a successful A* search
(over a positive-resolution planner with a nonempty grid), every consecutive
pair of way points of the simplified path has an unobstructed straight-line
connection against the same working grid used for the search: the Bresenham
walk between the two way points' grid cells meets no occupied cell (the walk
itself reports clear, and both end cells — the final one being the cell the
walk does not examine — are unoccupied). -/
theorem claim_C8_simplified_path_clear (pl : PathPlanner) (start goal : Pt)
    (dets : List Detection)
    (hres : 0 < pl.resolution.num * pl.resolution.den)
    (hw : 0 < pl.width) (hh : 0 < pl.height)
    (hne : pl.a_star (pl.applyDetections dets) (pl.meters_to_grid start)
      (pl.meters_to_grid goal) ≠ []) :
    ∀ k, k + 1 < (pl.plan_path start goal dets).length →
      pl.is_path_clear
          ((pl.plan_path start goal dets).getD k (⟨0, 1⟩, ⟨0, 1⟩))
          ((pl.plan_path start goal dets).getD (k + 1) (⟨0, 1⟩, ⟨0, 1⟩))
          (pl.applyDetections dets) = true ∧
        cellAt (pl.applyDetections dets)
          (pl.meters_to_grid
            ((pl.plan_path start goal dets).getD k (⟨0, 1⟩, ⟨0, 1⟩))) ≠ 1 ∧
        cellAt (pl.applyDetections dets)
          (pl.meters_to_grid
            ((pl.plan_path start goal dets).getD (k + 1)
              (⟨0, 1⟩, ⟨0, 1⟩))) ≠ 1 := by
  have hall : List.Chain'
      (fun u v => pl.is_path_clear u v (pl.applyDetections dets) = true ∧
        cellAt (pl.applyDetections dets) (pl.meters_to_grid u) ≠ 1 ∧
        cellAt (pl.applyDetections dets) (pl.meters_to_grid v) ≠ 1)
      (pl.plan_path start goal dets) := by
    have hin : inGrid pl (pl.meters_to_grid start) :=
      meters_to_grid_inGrid pl start hw hh
    obtain ⟨hok, hchain⟩ := a_star_ok pl (pl.applyDetections dets)
      (pl.meters_to_grid start) (pl.meters_to_grid goal) hin
    unfold PathPlanner.plan_path
    dsimp only
    rw [if_neg hne]
    have hadj : ∀ k, k + 1 <
        ((pl.a_star (pl.applyDetections dets) (pl.meters_to_grid start)
          (pl.meters_to_grid goal)).map pl.grid_to_meters).length →
        pl.is_path_clear
          (((pl.a_star (pl.applyDetections dets) (pl.meters_to_grid start)
            (pl.meters_to_grid goal)).map pl.grid_to_meters).getD k
              (⟨0, 1⟩, ⟨0, 1⟩))
          (((pl.a_star (pl.applyDetections dets) (pl.meters_to_grid start)
            (pl.meters_to_grid goal)).map pl.grid_to_meters).getD (k + 1)
              (⟨0, 1⟩, ⟨0, 1⟩))
          (pl.applyDetections dets) = true := by
      intro k hk
      rw [List.length_map] at hk
      have hk1 : k < (pl.a_star (pl.applyDetections dets)
          (pl.meters_to_grid start) (pl.meters_to_grid goal)).length := by omega
      rw [List.getD_eq_get _ _ (by rw [List.length_map]; omega),
        List.getD_eq_get _ _ (by rw [List.length_map]; omega),
        List.get_map, List.get_map]
      apply adjacent_clear pl (pl.applyDetections dets) _ _ hres
      · exact (hok _ (List.get_mem _ _ _)).1
      · exact (hok _ (List.get_mem _ _ _)).1
      · exact (hok _ (List.get_mem _ _ _)).2
      · exact List.chain'_iff_get.mp hchain k (by omega)
    obtain ⟨hchain2, hmem2⟩ := simplify_path_ok pl (pl.applyDetections dets)
      ((pl.a_star (pl.applyDetections dets) (pl.meters_to_grid start)
        (pl.meters_to_grid goal)).map pl.grid_to_meters) hadj
    apply chain'_and_of_forall hchain2
    intro w hw2
    obtain ⟨c, hcpg, rfl⟩ := List.mem_map.mp (hmem2 w hw2)
    have hokc := hok c hcpg
    rw [grid_to_meters_roundtrip pl c hres hokc.1]
    exact hokc.2
  intro k hk
  have hk2 : k < (pl.plan_path start goal dets).length - 1 := by omega
  have h := List.chain'_iff_get.mp hall k hk2
  rw [List.getD_eq_get _ _ (by omega : k < (pl.plan_path start goal dets).length),
    List.getD_eq_get _ _ (by omega : k + 1 < (pl.plan_path start goal dets).length)]
  exact h


/-- Witness for C8: a diagonal plan on the free 2x2 grid, with every
hypothesis checked on the concrete planner, the conclusion instantiated at
the plan's single consecutive pair. -/
theorem claim_C8_witness :
    (0 < plFree2.resolution.num * plFree2.resolution.den ∧
      0 < plFree2.width ∧ 0 < plFree2.height ∧
      plFree2.a_star (plFree2.applyDetections [])
        (plFree2.meters_to_grid (⟨1, 2⟩, ⟨1, 2⟩))
        (plFree2.meters_to_grid (⟨3, 2⟩, ⟨3, 2⟩)) ≠ [] ∧
      0 + 1 < (plFree2.plan_path (⟨1, 2⟩, ⟨1, 2⟩) (⟨3, 2⟩, ⟨3, 2⟩) []).length) ∧
    (plFree2.is_path_clear
        ((plFree2.plan_path (⟨1, 2⟩, ⟨1, 2⟩) (⟨3, 2⟩, ⟨3, 2⟩) []).getD 0
          (⟨0, 1⟩, ⟨0, 1⟩))
        ((plFree2.plan_path (⟨1, 2⟩, ⟨1, 2⟩) (⟨3, 2⟩, ⟨3, 2⟩) []).getD (0 + 1)
          (⟨0, 1⟩, ⟨0, 1⟩))
        (plFree2.applyDetections []) = true ∧
      cellAt (plFree2.applyDetections [])
        (plFree2.meters_to_grid
          ((plFree2.plan_path (⟨1, 2⟩, ⟨1, 2⟩) (⟨3, 2⟩, ⟨3, 2⟩) []).getD 0
            (⟨0, 1⟩, ⟨0, 1⟩))) ≠ 1 ∧
      cellAt (plFree2.applyDetections [])
        (plFree2.meters_to_grid
          ((plFree2.plan_path (⟨1, 2⟩, ⟨1, 2⟩) (⟨3, 2⟩, ⟨3, 2⟩) []).getD (0 + 1)
            (⟨0, 1⟩, ⟨0, 1⟩))) ≠ 1) :=
  ⟨⟨by decide, by decide, by decide, by decide, by decide⟩,
    claim_C8_simplified_path_clear plFree2 (⟨1, 2⟩, ⟨1, 2⟩) (⟨3, 2⟩, ⟨3, 2⟩) []
      (by decide) (by decide) (by decide) (by decide) 0 (by decide)⟩
